import Mathlib

/-!
OscillatorSynth: the oscillator, the delay effect and the reverb effect.

A shallow embedding of `src/oscillators.cpp`.

* A C++ `double` is an element of a linearly ordered field `α` with a floor
  function. Arithmetic is exact: rounding, infinities and NaN are not part of
  the model. Every definition runs on `ℚ`; statements about `std::exp`,
  `std::sin` and `M_PI` are made on `ℝ`.
* `<cmath>` is not part of the repository, so `std::exp`, `std::sin` and
  `M_PI` are parameters of the functions that call them.
* A `std::vector<double>` is a `List α`, a `size_t` is a `ℕ`. Reading or writing
  a vector out of bounds and `% 0` are undefined in C++; `process` returns
  `none` there.
* A member function that mutates its object returns the new object next to
  its result. The global variables `oscillators`, `delay` and `reverb` are
  the fields of `Engine`.
* `audioCallback` returns the list of values it writes to `outputBuffer`, its
  return code and the new globals; `static_cast<float>` is a parameter of it.
  Calls run one after another: threads are not part of the model.
-/

namespace OscillatorSynth

variable {α : Type} [LinearOrderedField α]

/-! ## Oscillator -/

/-- The enumeration `Oscillator::WaveType`. An enumeration object holds an
integer, and `addOscillator` casts any `int` to it. -/
abbrev WaveType := Int

/-- Enumerator `SINE`. -/
def SINE : WaveType := 0
/-- Enumerator `SQUARE`. -/
def SQUARE : WaveType := 1
/-- Enumerator `SAWTOOTH`. -/
def SAWTOOTH : WaveType := 2

/-- The data members of `class Oscillator`. -/
structure Oscillator (α : Type) where
  type : WaveType
  frequency : α
  amplitude : α
  attack : α
  decay : α
  sustain : α
  release : α
  time : α
  deriving DecidableEq

/-- The constructor `Oscillator::Oscillator`: it stores its arguments and
sets `time` to `0.0`. -/
def Oscillator.new (type : WaveType)
    (frequency amplitude attack decay sustain release : α) : Oscillator α :=
  { type := type, frequency := frequency, amplitude := amplitude, attack := attack,
    decay := decay, sustain := sustain, release := release, time := 0 }

/-- The member `Oscillator::getEnvelope`; `exp` is `std::exp`. -/
def Oscillator.getEnvelope (exp : α → α) (o : Oscillator α) : α :=
  if o.time < o.attack then
    o.time / o.attack
  else if o.time < o.attack + o.decay then
    1 - (1 - o.sustain) * ((o.time - o.attack) / o.decay)
  else
    o.sustain * exp ((-o.release) * (o.time - o.attack - o.decay))

/-- The value the `switch` of `Oscillator::getSample` leaves in `value`; `sin`
is `std::sin` and `pi` is `M_PI`. The `switch` has no `default`, so a `type`
that is none of the enumerators leaves the initial `0.0`. -/
def Oscillator.rawValue [FloorRing α] (sin : α → α) (pi : α) (o : Oscillator α) : α :=
  if o.type = SINE then
    sin (2 * pi * o.frequency * o.time)
  else if o.type = SQUARE then
    (if sin (2 * pi * o.frequency * o.time) > 0 then 1 else -1)
  else if o.type = SAWTOOTH then
    2 * (o.time * o.frequency - (⌊o.time * o.frequency + 0.5⌋ : α))
  else
    0

/-- The member `Oscillator::getSample`: the returned sample and the oscillator
with `time` advanced by `1.0 / 44100.0`. -/
def Oscillator.getSample [FloorRing α] (exp sin : α → α) (pi : α) (o : Oscillator α) :
    α × Oscillator α :=
  let envelope := o.getEnvelope exp
  let value := o.rawValue sin pi
  (value * o.amplitude * envelope, { o with time := o.time + 1 / 44100 })

/-! ## DelayEffect -/

/-- The data members of `class DelayEffect`. -/
structure DelayEffect (α : Type) where
  delayTime : α
  feedback : α
  mix : α
  buffer : List α
  bufferSize : ℕ
  bufferIndex : ℕ
  deriving DecidableEq

/-- The constructor `DelayEffect::DelayEffect`, for `delayTime ≥ 0`.
`static_cast<size_t>` of a non-negative `double` is its floor. For a product
`delayTime * 44100` of `-1` or less, or too large for `size_t`, the cast is
undefined in C++, and `resize` throws for a length it cannot allocate; there
this definition, which takes `⌊·⌋₊`, does not describe the code, and the
statements about the constructor keep to `delayTime ≥ 0`. -/
def DelayEffect.new [FloorRing α] (delayTime feedback mix : α) : DelayEffect α :=
  { delayTime := delayTime, feedback := feedback, mix := mix,
    buffer := List.replicate ⌊delayTime * 44100⌋₊ 0,
    bufferSize := ⌊delayTime * 44100⌋₊,
    bufferIndex := 0 }

/-- The member `DelayEffect::process`. -/
def DelayEffect.process (d : DelayEffect α) (input : α) : Option (α × DelayEffect α) :=
  if h : d.bufferIndex < d.buffer.length then
    let delayedSample := d.buffer[d.bufferIndex]
    if d.bufferSize = 0 then none
    else
      some (input * (1 - d.mix) + delayedSample * d.mix,
        { d with
          buffer := d.buffer.set d.bufferIndex (input + delayedSample * d.feedback)
          bufferIndex := (d.bufferIndex + 1) % d.bufferSize })
  else none

/-! ## ReverbEffect -/

/-- The data members of `class ReverbEffect::CombFilter`. -/
structure CombFilter (α : Type) where
  buffer : List α
  bufferSize : ℕ
  bufferIndex : ℕ
  decay : α
  deriving DecidableEq

/-- The constructor `CombFilter::CombFilter`. -/
def CombFilter.new [FloorRing α] (delayTime decay : α) : CombFilter α :=
  { buffer := List.replicate ⌊delayTime * 44100⌋₊ 0,
    bufferSize := ⌊delayTime * 44100⌋₊,
    bufferIndex := 0,
    decay := decay }

/-- The member `CombFilter::process`. -/
def CombFilter.process (c : CombFilter α) (input : α) : Option (α × CombFilter α) :=
  if h : c.bufferIndex < c.buffer.length then
    let output := c.buffer[c.bufferIndex]
    if c.bufferSize = 0 then none
    else
      some (output,
        { c with
          buffer := c.buffer.set c.bufferIndex (input + output * c.decay)
          bufferIndex := (c.bufferIndex + 1) % c.bufferSize })
  else none

/-- The data members of `class ReverbEffect::AllPassFilter`. -/
structure AllPassFilter (α : Type) where
  buffer : List α
  bufferSize : ℕ
  bufferIndex : ℕ
  decay : α
  deriving DecidableEq

/-- The constructor `AllPassFilter::AllPassFilter`. -/
def AllPassFilter.new [FloorRing α] (delayTime decay : α) : AllPassFilter α :=
  { buffer := List.replicate ⌊delayTime * 44100⌋₊ 0,
    bufferSize := ⌊delayTime * 44100⌋₊,
    bufferIndex := 0,
    decay := decay }

/-- The member `AllPassFilter::process`. -/
def AllPassFilter.process (a : AllPassFilter α) (input : α) :
    Option (α × AllPassFilter α) :=
  if h : a.bufferIndex < a.buffer.length then
    let bufferOutput := a.buffer[a.bufferIndex]
    let output := -input + bufferOutput
    if a.bufferSize = 0 then none
    else
      some (output,
        { a with
          buffer := a.buffer.set a.bufferIndex (input + bufferOutput * a.decay)
          bufferIndex := (a.bufferIndex + 1) % a.bufferSize })
  else none

/-- The data members of `class ReverbEffect`. The two `std::array`s are lists;
the constructor gives them four and two entries. -/
structure ReverbEffect (α : Type) where
  decay : α
  mix : α
  combFilters : List (CombFilter α)
  allPassFilters : List (AllPassFilter α)
  deriving DecidableEq

/-- The constructor `ReverbEffect::ReverbEffect`. -/
def ReverbEffect.new [FloorRing α] (decay mix : α) : ReverbEffect α :=
  { decay := decay, mix := mix,
    combFilters :=
      [CombFilter.new 0.0297 decay, CombFilter.new 0.0371 decay,
       CombFilter.new 0.0411 decay, CombFilter.new 0.0437 decay],
    allPassFilters := [AllPassFilter.new 0.005 0.7, AllPassFilter.new 0.0017 0.7] }

/-- The first loop of `ReverbEffect::process`,
`for (auto& comb : combFilters) output += comb.process(input);`,
started with the accumulator `output`. -/
def ReverbEffect.combLoop (input : α) :
    List (CombFilter α) → α → Option (α × List (CombFilter α))
  | [], output => some (output, [])
  | comb :: rest, output =>
    match comb.process input with
    | none => none
    | some (y, comb') =>
      match ReverbEffect.combLoop input rest (output + y) with
      | none => none
      | some (out, rest') => some (out, comb' :: rest')

/-- The second loop of `ReverbEffect::process`,
`for (auto& allPass : allPassFilters) output = allPass.process(output);`. -/
def ReverbEffect.allPassLoop :
    List (AllPassFilter α) → α → Option (α × List (AllPassFilter α))
  | [], output => some (output, [])
  | allPass :: rest, output =>
    match allPass.process output with
    | none => none
    | some (y, allPass') =>
      match ReverbEffect.allPassLoop rest y with
      | none => none
      | some (out, rest') => some (out, allPass' :: rest')

/-- The member `ReverbEffect::process`. -/
def ReverbEffect.process (r : ReverbEffect α) (input : α) : Option (α × ReverbEffect α) :=
  match ReverbEffect.combLoop input r.combFilters 0 with
  | none => none
  | some (summed, combs) =>
    match ReverbEffect.allPassLoop r.allPassFilters summed with
    | none => none
    | some (output, allPasses) =>
      some (input * (1 - r.mix) + output * r.mix,
        { r with combFilters := combs, allPassFilters := allPasses })

/-! ## The engine -/

/-- The global variables `oscillators`, `delay` and `reverb`. -/
structure Engine (α : Type) where
  oscillators : List (Oscillator α)
  delay : DelayEffect α
  reverb : ReverbEffect α
  deriving DecidableEq

/-- The initial values of the globals: no oscillator, `delay(0.5, 0.5, 0.5)`
and `reverb(0.7, 0.5)`. -/
def Engine.initial [FloorRing α] : Engine α :=
  { oscillators := [],
    delay := DelayEffect.new 0.5 0.5 0.5,
    reverb := ReverbEffect.new 0.7 0.5 }

/-- The function `addOscillator`: `push_back` of a new `Oscillator`. -/
def addOscillator (type : Int) (frequency amplitude attack decay sustain release : α)
    (e : Engine α) : Engine α :=
  { e with
    oscillators :=
      e.oscillators ++ [Oscillator.new type frequency amplitude attack decay sustain release] }

/-- The function `setDelayParameters`: `delay` is assigned a new `DelayEffect`. -/
def setDelayParameters [FloorRing α] (delayTime feedback mix : α) (e : Engine α) : Engine α :=
  { e with delay := DelayEffect.new delayTime feedback mix }

/-- The function `setReverbParameters`: `reverb` is assigned a new `ReverbEffect`. -/
def setReverbParameters [FloorRing α] (decay mix : α) (e : Engine α) : Engine α :=
  { e with reverb := ReverbEffect.new decay mix }

/-! ## Sequences of calls -/

/-- The result of call number `n` (counted from `0`) when `process` is called
on the successive entries of `x`, starting in state `s`: the returned value and
the state after the call. -/
def callsOn {σ β : Type} (process : σ → β → Option (β × σ)) (s : σ) (x : ℕ → β) :
    ℕ → Option (β × σ)
  | 0 => process s (x 0)
  | n + 1 =>
    match callsOn process s x n with
    | none => none
    | some (_, s') => process s' (x (n + 1))

/-- The value returned by call number `n`. -/
def outputOf {σ β : Type} (process : σ → β → Option (β × σ)) (s : σ) (x : ℕ → β)
    (n : ℕ) : Option β :=
  (callsOn process s x n).map Prod.fst

/-- The unit impulse `[1, 0, 0, ...]`. -/
def impulse : ℕ → α := fun n => if n = 0 then 1 else 0

/-! ## The ring buffer shared by the three filters -/

/-- The value read from a ring buffer of length `L` at call `n`, when every call
`m` writes `x m + (value read at call m) * g` into the cell it has read: `0` on
the first `L` calls, afterwards what call `n - L` wrote. -/
def ringRead (L : ℕ) (g : α) (x : ℕ → α) (n : ℕ) : α :=
  if _h : 0 < L ∧ L ≤ n then x (n - L) + ringRead L g x (n - L) * g else 0
termination_by n
decreasing_by omega

/-- A buffer and cursor are in the state reached after `n` calls on `x`: the
cell that call `j` will read, for the next `L` calls `j`, holds `ringRead L g x j`. -/
def RingAt (L : ℕ) (g : α) (x : ℕ → α) (n : ℕ) (buffer : List α) (bufferIndex : ℕ) : Prop :=
  buffer.length = L ∧ bufferIndex = n % L ∧
    ∀ j, n ≤ j → j < n + L → buffer[j % L]? = some (ringRead L g x j)

/-! ## States of live objects -/

/-- The class invariant of a `DelayEffect` built with a buffer of length at
least 1: `bufferSize` is the length of `buffer` and the cursor is inside. -/
def DelayEffect.WellFormed (d : DelayEffect α) : Prop :=
  d.buffer.length = d.bufferSize ∧ d.bufferIndex < d.bufferSize

/-- The class invariant of a `CombFilter` built with a buffer of length at least 1. -/
def CombFilter.WellFormed (c : CombFilter α) : Prop :=
  c.buffer.length = c.bufferSize ∧ c.bufferIndex < c.bufferSize

/-- The class invariant of an `AllPassFilter` built with a buffer of length at least 1. -/
def AllPassFilter.WellFormed (a : AllPassFilter α) : Prop :=
  a.buffer.length = a.bufferSize ∧ a.bufferIndex < a.bufferSize

/-- Every filter of a `ReverbEffect` satisfies its class invariant. -/
def ReverbEffect.WellFormed (r : ReverbEffect α) : Prop :=
  (∀ c ∈ r.combFilters, c.WellFormed) ∧ (∀ a ∈ r.allPassFilters, a.WellFormed)

/-- The state of a `DelayEffect` with buffer length `L` after `n` calls on `x`. -/
def DelayEffect.After (L : ℕ) (feedback mix : α) (x : ℕ → α) (n : ℕ)
    (d : DelayEffect α) : Prop :=
  d.feedback = feedback ∧ d.mix = mix ∧ d.bufferSize = L ∧
    RingAt L feedback x n d.buffer d.bufferIndex

/-- The state of a `CombFilter` with buffer length `L` after `n` calls on `x`. -/
def CombFilter.After (L : ℕ) (decay : α) (x : ℕ → α) (n : ℕ) (c : CombFilter α) : Prop :=
  c.decay = decay ∧ c.bufferSize = L ∧ RingAt L decay x n c.buffer c.bufferIndex

/-- The state of an `AllPassFilter` with buffer length `L` after `n` calls on `x`. -/
def AllPassFilter.After (L : ℕ) (decay : α) (x : ℕ → α) (n : ℕ)
    (a : AllPassFilter α) : Prop :=
  a.decay = decay ∧ a.bufferSize = L ∧ RingAt L decay x n a.buffer a.bufferIndex

/-- The sum of the squares of the values returned by the first `N` calls. -/
def squaredOutputSum {σ : Type} (process : σ → α → Option (α × σ)) (s : σ) (x : ℕ → α) :
    ℕ → Option α
  | 0 => some 0
  | N + 1 =>
    match squaredOutputSum process s x N, outputOf process s x N with
    | some e, some y => some (e + y * y)
    | _, _ => none

/-! ## Scaling a state -/

/-- A `CombFilter` with every buffer entry multiplied by `k`. -/
def CombFilter.scale (k : α) (c : CombFilter α) : CombFilter α :=
  { c with buffer := c.buffer.map (fun v => k * v) }

/-- An `AllPassFilter` with every buffer entry multiplied by `k`. -/
def AllPassFilter.scale (k : α) (a : AllPassFilter α) : AllPassFilter α :=
  { a with buffer := a.buffer.map (fun v => k * v) }

/-- A `ReverbEffect` with every buffer entry of every filter multiplied by `k`. -/
def ReverbEffect.scale (k : α) (r : ReverbEffect α) : ReverbEffect α :=
  { r with
    combFilters := r.combFilters.map (CombFilter.scale k)
    allPassFilters := r.allPassFilters.map (AllPassFilter.scale k) }

/-- The oscillator after `n` calls of `getSample`. -/
def Oscillator.afterSamples [FloorRing α] (exp sin : α → α) (pi : α) (o : Oscillator α) :
    ℕ → Oscillator α
  | 0 => o
  | n + 1 => ((Oscillator.afterSamples exp sin pi o n).getSample exp sin pi).2

/-- A live `DelayEffect` with the given `feedback` and `mix` whose buffer
entries are bounded by `B` in absolute value. -/
def DelayEffect.BoundedBy (feedback mix B : α) (d : DelayEffect α) : Prop :=
  d.WellFormed ∧ d.feedback = feedback ∧ d.mix = mix ∧ ∀ v ∈ d.buffer, |v| ≤ B

/-! ## The render callback -/

/-- The enumeration `PaStreamCallbackResult` that `<portaudio.h>` declares; the
callback returns its enumerator `paContinue`. -/
inductive PaStreamCallbackResult where
  | paContinue
  | paComplete
  | paAbort
  deriving DecidableEq

/-- The inner loop of `audioCallback`,
`for (auto& osc : oscillators) sample += osc.getSample();`,
started with the accumulator `sample`. -/
def audioCallback.mixLoop [FloorRing α] (exp sin : α → α) (pi : α) :
    List (Oscillator α) → α → α × List (Oscillator α)
  | [], sample => (sample, [])
  | osc :: rest, sample =>
    let r := osc.getSample exp sin pi
    let t := audioCallback.mixLoop exp sin pi rest (sample + r.1)
    (t.1, r.2 :: t.2)

/-- The outer loop of `audioCallback` with `k` frames left: `e` holds the
globals, `out` the values written so far, and `toFloat` is
`static_cast<float>`. -/
def audioCallback.frameLoop [FloorRing α] {β : Type} (exp sin : α → α) (pi : α)
    (toFloat : α → β) : ℕ → Engine α → List β → Option (List β × Engine α)
  | 0, e, out => some (out, e)
  | k + 1, e, out =>
    let mixed := audioCallback.mixLoop exp sin pi e.oscillators 0
    match e.delay.process mixed.1 with
    | none => none
    | some (delayed, delay') =>
      match e.reverb.process delayed with
      | none => none
      | some (sample, reverb') =>
        audioCallback.frameLoop exp sin pi toFloat k
          { oscillators := mixed.2, delay := delay', reverb := reverb' }
          (out ++ [toFloat sample, toFloat sample])

/-- The function `audioCallback`: the values written to `outputBuffer`, the
returned code and the globals afterwards. The parameters `inputBuffer`,
`timeInfo`, `statusFlags` and `userData` are not used by the body. -/
def audioCallback [FloorRing α] {β : Type} (exp sin : α → α) (pi : α) (toFloat : α → β)
    (framesPerBuffer : ℕ) (e : Engine α) :
    Option (List β × PaStreamCallbackResult × Engine α) :=
  match audioCallback.frameLoop exp sin pi toFloat framesPerBuffer e [] with
  | none => none
  | some (out, e') => some (out, PaStreamCallbackResult.paContinue, e')

/-- The specification's `renderSample`: `s` is the sum, in registration order,
of one `getSample()` of every oscillator; the result is
`reverb.process(delay.process(s))`, and every oscillator, the delay and the
reverb are in the state their call left them in. -/
def Spec.renderSample [FloorRing α] (exp sin : α → α) (pi : α) (e : Engine α) :
    Option (α × Engine α) :=
  let s := (e.oscillators.map (fun o => (o.getSample exp sin pi).1)).foldl (fun a b => a + b) 0
  match e.delay.process s with
  | none => none
  | some (delayed, delay') =>
    match e.reverb.process delayed with
    | none => none
    | some (sample, reverb') =>
      some (sample,
        { oscillators := e.oscillators.map (fun o => (o.getSample exp sin pi).2),
          delay := delay', reverb := reverb' })

/-- The specification's frames: the values of `N` successive `renderSample`
calls, the state threaded from each frame to the next, and the final state. -/
def Spec.frames [FloorRing α] (exp sin : α → α) (pi : α) :
    ℕ → Engine α → Option (List α × Engine α)
  | 0, e => some ([], e)
  | N + 1, e =>
    match Spec.renderSample exp sin pi e with
    | none => none
    | some (y, e1) =>
      match Spec.frames exp sin pi N e1 with
      | none => none
      | some (ys, e') => some (y :: ys, e')

/-- The specification's stereo output: each mono sample, cast to `float`,
written to the left and to the right channel. -/
def Spec.stereo {γ β : Type} (toFloat : γ → β) : List γ → List β
  | [] => []
  | y :: ys => toFloat y :: toFloat y :: Spec.stereo toFloat ys

/-! ## The signals inside the reverb -/

/-- The value of `output` after the first loop of `ReverbEffect::process` at
call `n`: the sum of what the four comb filters, of buffer lengths `L0` to `L3`,
return. -/
def reverbSummed (L0 L1 L2 L3 : ℕ) (decay : α) (x : ℕ → α) (n : ℕ) : α :=
  0 + ringRead L0 decay x n + ringRead L1 decay x n + ringRead L2 decay x n
    + ringRead L3 decay x n

/-- What the first all-pass filter, of buffer length `M0`, returns at call `n`. -/
def reverbDiffused (L0 L1 L2 L3 M0 : ℕ) (decay : α) (x : ℕ → α) (n : ℕ) : α :=
  -reverbSummed L0 L1 L2 L3 decay x n
    + ringRead M0 0.7 (reverbSummed L0 L1 L2 L3 decay x) n

/-- What the second all-pass filter, of buffer length `M1`, returns at call `n`:
the wet signal. -/
def reverbWet (L0 L1 L2 L3 M0 M1 : ℕ) (decay : α) (x : ℕ → α) (n : ℕ) : α :=
  -reverbDiffused L0 L1 L2 L3 M0 decay x n
    + ringRead M1 0.7 (reverbDiffused L0 L1 L2 L3 M0 decay x) n

/-- The state of a `ReverbEffect` after `n` calls on `x`, for comb filters of
buffer lengths `L0` to `L3` and all-pass filters of buffer lengths `M0`, `M1`. -/
def ReverbEffect.After (L0 L1 L2 L3 M0 M1 : ℕ) (decay mix : α) (x : ℕ → α) (n : ℕ)
    (r : ReverbEffect α) : Prop :=
  r.mix = mix ∧ ∃ c0 c1 c2 c3 a0 a1,
    r.combFilters = [c0, c1, c2, c3] ∧ r.allPassFilters = [a0, a1] ∧
    CombFilter.After L0 decay x n c0 ∧ CombFilter.After L1 decay x n c1 ∧
    CombFilter.After L2 decay x n c2 ∧ CombFilter.After L3 decay x n c3 ∧
    AllPassFilter.After M0 0.7 (reverbSummed L0 L1 L2 L3 decay x) n a0 ∧
    AllPassFilter.After M1 0.7 (reverbDiffused L0 L1 L2 L3 M0 decay x) n a1

/-! ## Theorems -/

/-! ## Sequences of calls and the ring buffer -/

theorem ringRead_lt (L : ℕ) (g : α) (x : ℕ → α) (n : ℕ) (h : n < L) :
    ringRead L g x n = 0 := by
  rw [ringRead, dif_neg]
  omega

theorem ringRead_ge (L : ℕ) (g : α) (x : ℕ → α) (n : ℕ) (hL : 0 < L) (h : L ≤ n) :
    ringRead L g x n = x (n - L) + ringRead L g x (n - L) * g := by
  rw [ringRead, dif_pos ⟨hL, h⟩]

theorem ringRead_add (L : ℕ) (g : α) (x : ℕ → α) (n : ℕ) (hL : 0 < L) :
    ringRead L g x (n + L) = x n + ringRead L g x n * g := by
  rw [ringRead_ge L g x (n + L) hL (by omega), Nat.add_sub_cancel]

theorem RingAt.ring_fresh (L : ℕ) (g : α) (x : ℕ → α) :
    RingAt L g x 0 (List.replicate L 0) 0 := by
  refine ⟨by simp, by simp, ?_⟩
  intro j _ hj
  have hjL : j < L := by omega
  rw [Nat.mod_eq_of_lt hjL, ringRead_lt L g x j hjL]
  simp [hjL]

theorem RingAt.index_lt {L : ℕ} {g : α} {x : ℕ → α} {n : ℕ} {buffer : List α}
    {bufferIndex : ℕ} (h : RingAt L g x n buffer bufferIndex) (hL : 0 < L) :
    bufferIndex < buffer.length := by
  rw [h.1, h.2.1]
  exact Nat.mod_lt _ hL

theorem RingAt.read {L : ℕ} {g : α} {x : ℕ → α} {n : ℕ} {buffer : List α}
    {bufferIndex : ℕ} (h : RingAt L g x n buffer bufferIndex) (hL : 0 < L)
    (hi : bufferIndex < buffer.length) :
    buffer[bufferIndex] = ringRead L g x n := by
  have h1 := h.2.2 n (le_refl n) (by omega)
  rw [← h.2.1] at h1
  rw [List.getElem?_eq_getElem hi] at h1
  exact Option.some.inj h1

theorem RingAt.ring_step {L : ℕ} {g : α} {x : ℕ → α} {n : ℕ} {buffer : List α}
    {bufferIndex : ℕ} (h : RingAt L g x n buffer bufferIndex) (hL : 0 < L) :
    RingAt L g x (n + 1) (buffer.set bufferIndex (x n + ringRead L g x n * g))
      ((bufferIndex + 1) % L) := by
  obtain ⟨hlen, hidx, hcells⟩ := h
  refine ⟨by simp [hlen], ?_, ?_⟩
  · rw [hidx, Nat.mod_add_mod]
  · intro j hj1 hj2
    by_cases hj : j = n + L
    · subst hj
      rw [hidx, Nat.add_mod_right, ringRead_add L g x n hL]
      rw [List.getElem?_set_self]
      simp [hlen, Nat.mod_lt _ hL]
    · have hne : n % L ≠ j % L := by
        intro hmod
        have h3 : (j - n) % L = 0 := Nat.sub_mod_eq_zero_of_mod_eq hmod.symm
        have h4 : L ∣ j - n := Nat.dvd_of_mod_eq_zero h3
        have h5 := Nat.le_of_dvd (by omega) h4
        omega
      rw [hidx, List.getElem?_set_ne hne]
      exact hcells j (by omega) (by omega)

/-- A property that holds at the start and is carried by every call, together
with the value the call returns, gives the value returned by every call. -/
theorem callsOn_of_invariant {σ β : Type} (process : σ → β → Option (β × σ))
    (Inv : ℕ → σ → Prop) (out : ℕ → β) (s : σ) (x : ℕ → β) (h0 : Inv 0 s)
    (hstep : ∀ n t, Inv n t → ∃ t', process t (x n) = some (out n, t') ∧ Inv (n + 1) t')
    (n : ℕ) : ∃ t', callsOn process s x n = some (out n, t') ∧ Inv (n + 1) t' := by
  induction n with
  | zero => exact hstep 0 s h0
  | succ k ih =>
    obtain ⟨t, ht, hinv⟩ := ih
    simp only [callsOn, ht]
    exact hstep (k + 1) t hinv

theorem outputOf_of_invariant {σ β : Type} (process : σ → β → Option (β × σ))
    (Inv : ℕ → σ → Prop) (out : ℕ → β) (s : σ) (x : ℕ → β) (h0 : Inv 0 s)
    (hstep : ∀ n t, Inv n t → ∃ t', process t (x n) = some (out n, t') ∧ Inv (n + 1) t')
    (n : ℕ) : outputOf process s x n = some (out n) := by
  obtain ⟨t, ht, _⟩ := callsOn_of_invariant process Inv out s x h0 hstep n
  simp [outputOf, ht]

theorem DelayEffect.After.delay_step {L : ℕ} {feedback mix : α} {x : ℕ → α} {n : ℕ}
    {d : DelayEffect α} (h : DelayEffect.After L feedback mix x n d) (hL : 0 < L) :
    ∃ d', d.process (x n)
        = some (x n * (1 - mix) + ringRead L feedback x n * mix, d') ∧
      DelayEffect.After L feedback mix x (n + 1) d' := by
  obtain ⟨hf, hm, hs, hring⟩ := h
  have hi := hring.index_lt hL
  have hr := hring.read hL hi
  have hL0 : L ≠ 0 := by omega
  refine ⟨{ d with
      buffer := d.buffer.set d.bufferIndex (x n + ringRead L feedback x n * feedback)
      bufferIndex := (d.bufferIndex + 1) % L }, ?_, ?_⟩
  · simp only [DelayEffect.process, dif_pos hi, hr, hm, hf, hs, if_neg hL0]
  · exact ⟨hf, hm, hs, hring.ring_step hL⟩

theorem DelayEffect.After.delay_fresh [FloorRing α] (delayTime feedback mix : α) (x : ℕ → α) :
    DelayEffect.After ⌊delayTime * 44100⌋₊ feedback mix x 0
      (DelayEffect.new delayTime feedback mix) :=
  ⟨rfl, rfl, rfl, RingAt.ring_fresh _ feedback x⟩

/-- The value returned by call `n` of a fresh `DelayEffect`. -/
theorem DelayEffect.delay_output_fresh [FloorRing α] (delayTime feedback mix : α) (x : ℕ → α)
    (hL : 0 < ⌊delayTime * 44100⌋₊) (n : ℕ) :
    outputOf DelayEffect.process (DelayEffect.new delayTime feedback mix) x n
      = some (x n * (1 - mix) + ringRead ⌊delayTime * 44100⌋₊ feedback x n * mix) :=
  outputOf_of_invariant DelayEffect.process
    (DelayEffect.After ⌊delayTime * 44100⌋₊ feedback mix x) _ _ x
    (DelayEffect.After.delay_fresh delayTime feedback mix x)
    (fun _ _ h => h.delay_step hL) n

theorem ringRead_zero_coeff (L : ℕ) (x : ℕ → α) (n : ℕ) (hL : 0 < L) :
    ringRead L 0 x n = if n < L then 0 else x (n - L) := by
  split_ifs with h
  · exact ringRead_lt L 0 x n h
  · rw [ringRead_ge L 0 x n hL (by omega)]
    simp

/-- C1. A `DelayEffect` freshly constructed with `feedback = 0` and `mix = 1`
whose buffer length `L = ⌊delayTime * 44100⌋` is at least 1 is a pure delay:
call `n` of `process` returns `0` when `n < L` and `x (n - L)` otherwise. -/
theorem delay_pure_delay [FloorRing α] (delayTime : α) (x : ℕ → α) (n : ℕ)
    (hL : 1 ≤ ⌊delayTime * 44100⌋₊) :
    outputOf DelayEffect.process (DelayEffect.new delayTime 0 1) x n
      = some (if n < ⌊delayTime * 44100⌋₊ then 0 else x (n - ⌊delayTime * 44100⌋₊)) := by
  rw [DelayEffect.delay_output_fresh delayTime 0 1 x hL n, ringRead_zero_coeff _ x n hL]
  simp

/-- C1, the instance of the specification: `DelayEffect(1/44100, 0, 1.0)` has
buffer length 1 and, fed `[1, 0, 0, ...]`, returns `[0, 1, 0, 0, ...]`. -/
theorem delay_pure_delay_witness :
    (DelayEffect.new (1 / 44100 : ℚ) 0 1).bufferSize = 1 ∧
    1 ≤ ⌊(1 / 44100 : ℚ) * 44100⌋₊ ∧
    outputOf DelayEffect.process (DelayEffect.new (1 / 44100 : ℚ) 0 1) impulse 0 = some 0 ∧
    outputOf DelayEffect.process (DelayEffect.new (1 / 44100 : ℚ) 0 1) impulse 1 = some 1 ∧
    outputOf DelayEffect.process (DelayEffect.new (1 / 44100 : ℚ) 0 1) impulse 2 = some 0 ∧
    outputOf DelayEffect.process (DelayEffect.new (1 / 44100 : ℚ) 0 1) impulse 3 = some 0 := by
  have hf : ⌊(1 / 44100 : ℚ) * 44100⌋₊ = 1 := by norm_num
  have h := fun n => delay_pure_delay (1 / 44100 : ℚ) impulse n (by rw [hf])
  simp only [hf] at h
  refine ⟨hf, by rw [hf], ?_, ?_, ?_, ?_⟩
  · simpa using h 0
  · simpa [impulse] using h 1
  · simpa [impulse] using h 2
  · simpa [impulse] using h 3

/-! ## Single calls on live objects -/

theorem DelayEffect.delay_process_of_wellFormed (d : DelayEffect α) (input : α)
    (h : d.WellFormed) :
    ∃ v, d.buffer[d.bufferIndex]? = some v ∧
      d.process input = some (input * (1 - d.mix) + v * d.mix,
        { d with
          buffer := d.buffer.set d.bufferIndex (input + v * d.feedback)
          bufferIndex := (d.bufferIndex + 1) % d.bufferSize }) := by
  have hi : d.bufferIndex < d.buffer.length := by rw [h.1]; exact h.2
  have hs : d.bufferSize ≠ 0 := by have := h.2; omega
  exact ⟨d.buffer[d.bufferIndex], List.getElem?_eq_getElem hi, by
    simp only [DelayEffect.process, dif_pos hi, if_neg hs]⟩

theorem CombFilter.comb_process_of_wellFormed (c : CombFilter α) (input : α)
    (h : c.WellFormed) :
    ∃ v, c.buffer[c.bufferIndex]? = some v ∧
      c.process input = some (v,
        { c with
          buffer := c.buffer.set c.bufferIndex (input + v * c.decay)
          bufferIndex := (c.bufferIndex + 1) % c.bufferSize }) := by
  have hi : c.bufferIndex < c.buffer.length := by rw [h.1]; exact h.2
  have hs : c.bufferSize ≠ 0 := by have := h.2; omega
  exact ⟨c.buffer[c.bufferIndex], List.getElem?_eq_getElem hi, by
    simp only [CombFilter.process, dif_pos hi, if_neg hs]⟩

theorem AllPassFilter.allPass_process_of_wellFormed (a : AllPassFilter α) (input : α)
    (h : a.WellFormed) :
    ∃ v, a.buffer[a.bufferIndex]? = some v ∧
      a.process input = some (-input + v,
        { a with
          buffer := a.buffer.set a.bufferIndex (input + v * a.decay)
          bufferIndex := (a.bufferIndex + 1) % a.bufferSize }) := by
  have hi : a.bufferIndex < a.buffer.length := by rw [h.1]; exact h.2
  have hs : a.bufferSize ≠ 0 := by have := h.2; omega
  exact ⟨a.buffer[a.bufferIndex], List.getElem?_eq_getElem hi, by
    simp only [AllPassFilter.process, dif_pos hi, if_neg hs]⟩

theorem CombFilter.comb_process_wellFormed {c c' : CombFilter α} {input y : α}
    (h : c.WellFormed) (hp : c.process input = some (y, c')) : c'.WellFormed := by
  obtain ⟨v, _, hv⟩ := c.comb_process_of_wellFormed input h
  rw [hv] at hp
  obtain ⟨_, rfl⟩ := Prod.mk.inj (Option.some.inj hp)
  exact ⟨by simpa using h.1, Nat.mod_lt _ (by have := h.2; omega)⟩

theorem AllPassFilter.allPass_process_wellFormed {a a' : AllPassFilter α} {input y : α}
    (h : a.WellFormed) (hp : a.process input = some (y, a')) : a'.WellFormed := by
  obtain ⟨v, _, hv⟩ := a.allPass_process_of_wellFormed input h
  rw [hv] at hp
  obtain ⟨_, rfl⟩ := Prod.mk.inj (Option.some.inj hp)
  exact ⟨by simpa using h.1, Nat.mod_lt _ (by have := h.2; omega)⟩

theorem ReverbEffect.combLoop_of_wellFormed (input : α) (combs : List (CombFilter α))
    (h : ∀ c ∈ combs, c.WellFormed) (output : α) :
    ∃ out combs', ReverbEffect.combLoop input combs output = some (out, combs') ∧
      ∀ c ∈ combs', c.WellFormed := by
  induction combs generalizing output with
  | nil => exact ⟨output, [], rfl, by simp⟩
  | cons comb rest ih =>
    have hc := h comb (List.mem_cons_self _ _)
    obtain ⟨v, _, hv⟩ := comb.comb_process_of_wellFormed input hc
    obtain ⟨out, rest', hrest, hwf⟩ :=
      ih (fun c hc => h c (List.mem_cons_of_mem _ hc)) (output + v)
    refine ⟨out, _ :: rest', by simp only [ReverbEffect.combLoop, hv, hrest]; rfl, ?_⟩
    intro c hmem
    rcases List.mem_cons.mp hmem with rfl | hmem
    · exact CombFilter.comb_process_wellFormed hc hv
    · exact hwf c hmem

theorem ReverbEffect.allPassLoop_of_wellFormed (allPasses : List (AllPassFilter α))
    (h : ∀ a ∈ allPasses, a.WellFormed) (output : α) :
    ∃ out allPasses', ReverbEffect.allPassLoop allPasses output = some (out, allPasses') ∧
      ∀ a ∈ allPasses', a.WellFormed := by
  induction allPasses generalizing output with
  | nil => exact ⟨output, [], rfl, by simp⟩
  | cons allPass rest ih =>
    have ha := h allPass (List.mem_cons_self _ _)
    obtain ⟨v, _, hv⟩ := allPass.allPass_process_of_wellFormed output ha
    obtain ⟨out, rest', hrest, hwf⟩ :=
      ih (fun a ha => h a (List.mem_cons_of_mem _ ha)) (-output + v)
    refine ⟨out, _ :: rest', by simp only [ReverbEffect.allPassLoop, hv, hrest]; rfl, ?_⟩
    intro a hmem
    rcases List.mem_cons.mp hmem with rfl | hmem
    · exact AllPassFilter.allPass_process_wellFormed ha hv
    · exact hwf a hmem

/-- The value `ReverbEffect::process` returns on a live object, with the value
`output` holds after the two loops. -/
theorem ReverbEffect.reverb_process_of_wellFormed (r : ReverbEffect α) (input : α)
    (h : r.WellFormed) :
    ∃ summed combs output allPasses,
      ReverbEffect.combLoop input r.combFilters 0 = some (summed, combs) ∧
      ReverbEffect.allPassLoop r.allPassFilters summed = some (output, allPasses) ∧
      r.process input = some (input * (1 - r.mix) + output * r.mix,
        { r with combFilters := combs, allPassFilters := allPasses }) ∧
      ReverbEffect.WellFormed { r with combFilters := combs, allPassFilters := allPasses } := by
  obtain ⟨summed, combs, hc, hcw⟩ := ReverbEffect.combLoop_of_wellFormed input _ h.1 0
  obtain ⟨output, allPasses, ha, haw⟩ := ReverbEffect.allPassLoop_of_wellFormed _ h.2 summed
  exact ⟨summed, combs, output, allPasses, hc, ha,
    by simp only [ReverbEffect.process, hc, ha], hcw, haw⟩

/-! ## Fresh objects -/

theorem DelayEffect.delay_new_wellFormed [FloorRing α] (delayTime feedback mix : α)
    (hL : 1 ≤ ⌊delayTime * 44100⌋₊) : (DelayEffect.new delayTime feedback mix).WellFormed :=
  ⟨by simp [DelayEffect.new], hL⟩

theorem CombFilter.comb_new_wellFormed [FloorRing α] (delayTime decay : α)
    (hL : 1 ≤ ⌊delayTime * 44100⌋₊) : (CombFilter.new delayTime decay).WellFormed :=
  ⟨by simp [CombFilter.new], hL⟩

theorem AllPassFilter.allPass_new_wellFormed [FloorRing α] (delayTime decay : α)
    (hL : 1 ≤ ⌊delayTime * 44100⌋₊) : (AllPassFilter.new delayTime decay).WellFormed :=
  ⟨by simp [AllPassFilter.new], hL⟩

theorem ReverbEffect.reverb_new_wellFormed [FloorRing α] (decay mix : α) :
    (ReverbEffect.new decay mix).WellFormed := by
  constructor
  · intro c hc
    simp only [ReverbEffect.new, List.mem_cons, List.mem_singleton, List.not_mem_nil,
      or_false] at hc
    rcases hc with rfl | rfl | rfl | rfl <;>
      exact CombFilter.comb_new_wellFormed _ _ (Nat.le_floor (by norm_num))
  · intro a ha
    simp only [ReverbEffect.new, List.mem_cons, List.mem_singleton, List.not_mem_nil,
      or_false] at ha
    rcases ha with rfl | rfl <;>
      exact AllPassFilter.allPass_new_wellFormed _ _ (Nat.le_floor (by norm_num))

theorem CombFilter.comb_process_new_fst [FloorRing α] {delayTime decay input y : α}
    {c' : CombFilter α} (h : (CombFilter.new delayTime decay).process input = some (y, c')) :
    y = 0 := by
  unfold CombFilter.process at h
  split_ifs at h with h1 h2
  simp only [CombFilter.new, Option.some.injEq, Prod.mk.injEq, List.getElem_replicate] at h
  exact h.1.symm

theorem AllPassFilter.allPass_process_new_fst [FloorRing α] {delayTime decay input y : α}
    {a' : AllPassFilter α}
    (h : (AllPassFilter.new delayTime decay).process input = some (y, a')) :
    y = -input := by
  unfold AllPassFilter.process at h
  split_ifs at h with h1 h2
  simp only [AllPassFilter.new, Option.some.injEq, Prod.mk.injEq,
    List.getElem_replicate, add_zero] at h
  exact h.1.symm

/-! ## C2: the mix boundary -/

/-- C2. On every live `DelayEffect` and `ReverbEffect` and every input: with
`mix = 0` both `process` functions return the input; with `mix = 1`
`DelayEffect::process` returns the sample `buffer[bufferIndex]` it has read, and
`ReverbEffect::process` returns what the second all-pass filter returned. -/
theorem mix_boundary (d : DelayEffect α) (r : ReverbEffect α) (input : α)
    (hd : d.WellFormed) (hr : r.WellFormed) :
    (d.mix = 0 → (d.process input).map Prod.fst = some input) ∧
    (r.mix = 0 → (r.process input).map Prod.fst = some input) ∧
    (d.mix = 1 → ∃ delayedSample, d.buffer[d.bufferIndex]? = some delayedSample ∧
      (d.process input).map Prod.fst = some delayedSample) ∧
    (r.mix = 1 → ∀ c0 c1 c2 c3 a0 a1, r.combFilters = [c0, c1, c2, c3] →
      r.allPassFilters = [a0, a1] →
      ∃ y0 c0' y1 c1' y2 c2' y3 c3' z0 a0' z1 a1',
        c0.process input = some (y0, c0') ∧ c1.process input = some (y1, c1') ∧
        c2.process input = some (y2, c2') ∧ c3.process input = some (y3, c3') ∧
        a0.process (0 + y0 + y1 + y2 + y3) = some (z0, a0') ∧
        a1.process z0 = some (z1, a1') ∧
        r.process input = some (z1,
          { r with combFilters := [c0', c1', c2', c3'], allPassFilters := [a0', a1'] })) := by
  refine ⟨?_, ?_, ?_, ?_⟩
  · intro hm
    obtain ⟨v, _, hv⟩ := d.delay_process_of_wellFormed input hd
    simp [hv, hm]
  · intro hm
    obtain ⟨_, _, _, _, _, _, hp, _⟩ := r.reverb_process_of_wellFormed input hr
    simp [hp, hm]
  · intro hm
    obtain ⟨v, hread, hv⟩ := d.delay_process_of_wellFormed input hd
    exact ⟨v, hread, by simp [hv, hm]⟩
  · intro hm c0 c1 c2 c3 a0 a1 hcs has
    have hcw : ∀ c ∈ [c0, c1, c2, c3], c.WellFormed := hcs ▸ hr.1
    have haw : ∀ a ∈ [a0, a1], a.WellFormed := has ▸ hr.2
    obtain ⟨y0, _, h0⟩ := c0.comb_process_of_wellFormed input (hcw c0 (by simp))
    obtain ⟨y1, _, h1⟩ := c1.comb_process_of_wellFormed input (hcw c1 (by simp))
    obtain ⟨y2, _, h2⟩ := c2.comb_process_of_wellFormed input (hcw c2 (by simp))
    obtain ⟨y3, _, h3⟩ := c3.comb_process_of_wellFormed input (hcw c3 (by simp))
    obtain ⟨v0, _, g0⟩ :=
      a0.allPass_process_of_wellFormed (0 + y0 + y1 + y2 + y3) (haw a0 (by simp))
    obtain ⟨v1, _, g1⟩ :=
      a1.allPass_process_of_wellFormed (-(0 + y0 + y1 + y2 + y3) + v0) (haw a1 (by simp))
    refine ⟨y0, _, y1, _, y2, _, y3, _, _, _, _, _, h0, h1, h2, h3, g0, g1, ?_⟩
    simp only [ReverbEffect.process, hcs, has, ReverbEffect.combLoop,
      ReverbEffect.allPassLoop, h0, h1, h2, h3, g0, g1, hm]
    simp

/-- C2 on fresh objects: `DelayEffect(1/44100, 0.5, mix)` and
`ReverbEffect(0.7, mix)` called on the input `3`, for `mix = 0` and `mix = 1`. -/
theorem mix_boundary_witness :
    (DelayEffect.new (1 / 44100 : ℚ) (1 / 2) 0).WellFormed ∧
    (ReverbEffect.new (7 / 10 : ℚ) 0).WellFormed ∧
    ((DelayEffect.new (1 / 44100 : ℚ) (1 / 2) 0).process 3).map Prod.fst = some 3 ∧
    ((ReverbEffect.new (7 / 10 : ℚ) 0).process 3).map Prod.fst = some 3 ∧
    ((DelayEffect.new (1 / 44100 : ℚ) (1 / 2) 1).process 3).map Prod.fst = some 0 ∧
    ((ReverbEffect.new (7 / 10 : ℚ) 1).process 3).map Prod.fst = some 0 := by
  have hf : 1 ≤ ⌊(1 / 44100 : ℚ) * 44100⌋₊ := by norm_num
  have hd0 := DelayEffect.delay_new_wellFormed (1 / 44100 : ℚ) (1 / 2) 0 hf
  have hd1 := DelayEffect.delay_new_wellFormed (1 / 44100 : ℚ) (1 / 2) 1 hf
  have hr0 := ReverbEffect.reverb_new_wellFormed (7 / 10 : ℚ) 0
  have hr1 := ReverbEffect.reverb_new_wellFormed (7 / 10 : ℚ) 1
  have w0 := mix_boundary _ _ (3 : ℚ) hd0 hr0
  have w1 := mix_boundary _ _ (3 : ℚ) hd1 hr1
  refine ⟨hd0, hr0, w0.1 rfl, w0.2.1 rfl, ?_, ?_⟩
  · obtain ⟨v, hv, hp⟩ := w1.2.2.1 rfl
    have hv0 : v = 0 := by
      simp only [DelayEffect.new, List.getElem?_replicate] at hv
      split_ifs at hv
      exact (Option.some.inj hv).symm
    rw [hp, hv0]
  · obtain ⟨y0, _, y1, _, y2, _, y3, _, z0, _, z1, _, h0, h1, h2, h3, g0, g1, hp⟩ :=
      w1.2.2.2 rfl _ _ _ _ _ _ rfl rfl
    have e0 := CombFilter.comb_process_new_fst h0
    have e1 := CombFilter.comb_process_new_fst h1
    have e2 := CombFilter.comb_process_new_fst h2
    have e3 := CombFilter.comb_process_new_fst h3
    have f0 := AllPassFilter.allPass_process_new_fst g0
    have f1 := AllPassFilter.allPass_process_new_fst g1
    rw [hp, f1, f0, e0, e1, e2, e3]
    simp

/-! ## C3: the reverb is linear -/

theorem CombFilter.comb_process_scale (k : α) (c : CombFilter α) (input : α) :
    (c.scale k).process (k * input)
      = (c.process input).map (fun p => (k * p.1, p.2.scale k)) := by
  unfold CombFilter.process
  by_cases hi : c.bufferIndex < c.buffer.length
  · have hi' : (c.scale k).bufferIndex < (c.scale k).buffer.length := by
      simpa [CombFilter.scale] using hi
    rw [dif_pos hi, dif_pos hi']
    by_cases hs : c.bufferSize = 0
    · simp [CombFilter.scale, hs]
    · simp [CombFilter.scale, hs, mul_add, mul_assoc]
  · have hi' : ¬ (c.scale k).bufferIndex < (c.scale k).buffer.length := by
      simpa [CombFilter.scale] using hi
    rw [dif_neg hi, dif_neg hi']
    rfl

theorem AllPassFilter.allPass_process_scale (k : α) (a : AllPassFilter α) (input : α) :
    (a.scale k).process (k * input)
      = (a.process input).map (fun p => (k * p.1, p.2.scale k)) := by
  unfold AllPassFilter.process
  by_cases hi : a.bufferIndex < a.buffer.length
  · have hi' : (a.scale k).bufferIndex < (a.scale k).buffer.length := by
      simpa [AllPassFilter.scale] using hi
    rw [dif_pos hi, dif_pos hi']
    by_cases hs : a.bufferSize = 0
    · simp [AllPassFilter.scale, hs]
    · simp [AllPassFilter.scale, hs, mul_add, mul_assoc]
  · have hi' : ¬ (a.scale k).bufferIndex < (a.scale k).buffer.length := by
      simpa [AllPassFilter.scale] using hi
    rw [dif_neg hi, dif_neg hi']
    rfl

theorem ReverbEffect.combLoop_scale (k input : α) (combs : List (CombFilter α))
    (output : α) :
    ReverbEffect.combLoop (k * input) (combs.map (CombFilter.scale k)) (k * output)
      = (ReverbEffect.combLoop input combs output).map
          (fun p => (k * p.1, p.2.map (CombFilter.scale k))) := by
  induction combs generalizing output with
  | nil => rfl
  | cons comb rest ih =>
    simp only [List.map_cons, ReverbEffect.combLoop, CombFilter.comb_process_scale]
    cases hc : comb.process input with
    | none => rfl
    | some p =>
      obtain ⟨y, comb'⟩ := p
      simp only [Option.map_some', ← mul_add, ih]
      cases hr : ReverbEffect.combLoop input rest (output + y) with
      | none => rfl
      | some q => rfl

theorem ReverbEffect.allPassLoop_scale (k : α) (allPasses : List (AllPassFilter α))
    (output : α) :
    ReverbEffect.allPassLoop (allPasses.map (AllPassFilter.scale k)) (k * output)
      = (ReverbEffect.allPassLoop allPasses output).map
          (fun p => (k * p.1, p.2.map (AllPassFilter.scale k))) := by
  induction allPasses generalizing output with
  | nil => rfl
  | cons allPass rest ih =>
    simp only [List.map_cons, ReverbEffect.allPassLoop, AllPassFilter.allPass_process_scale]
    cases ha : allPass.process output with
    | none => rfl
    | some p =>
      obtain ⟨y, allPass'⟩ := p
      simp only [Option.map_some', ih]
      cases hr : ReverbEffect.allPassLoop rest y with
      | none => rfl
      | some q => rfl

theorem ReverbEffect.reverb_process_scale (k : α) (r : ReverbEffect α) (input : α) :
    (r.scale k).process (k * input)
      = (r.process input).map (fun p => (k * p.1, p.2.scale k)) := by
  have hcl := ReverbEffect.combLoop_scale k input r.combFilters 0
  rw [mul_zero] at hcl
  simp only [ReverbEffect.process, ReverbEffect.scale, hcl]
  cases hc : ReverbEffect.combLoop input r.combFilters 0 with
  | none => rfl
  | some p =>
    obtain ⟨summed, combs⟩ := p
    simp only [Option.map_some', ReverbEffect.allPassLoop_scale]
    cases ha : ReverbEffect.allPassLoop r.allPassFilters summed with
    | none => rfl
    | some q =>
      obtain ⟨output, allPasses⟩ := q
      simp only [Option.map_some', Option.some.injEq, Prod.mk.injEq, and_true]
      ring

theorem ReverbEffect.new_scale [FloorRing α] (k decay mix : α) :
    (ReverbEffect.new decay mix).scale k = ReverbEffect.new decay mix := by
  simp [ReverbEffect.new, ReverbEffect.scale, CombFilter.scale, AllPassFilter.scale,
    CombFilter.new, AllPassFilter.new]

theorem ReverbEffect.callsOn_scale (k : α) (r : ReverbEffect α) (x : ℕ → α) (n : ℕ) :
    callsOn ReverbEffect.process (r.scale k) (fun i => k * x i) n
      = (callsOn ReverbEffect.process r x n).map (fun p => (k * p.1, p.2.scale k)) := by
  induction n with
  | zero => exact ReverbEffect.reverb_process_scale k r (x 0)
  | succ m ih =>
    simp only [callsOn, ih]
    cases hc : callsOn ReverbEffect.process r x m with
    | none => rfl
    | some p => exact ReverbEffect.reverb_process_scale k p.2 (x (m + 1))

/-- Every call on a fresh `ReverbEffect` returns. -/
theorem ReverbEffect.callsOn_new [FloorRing α] (decay mix : α) (x : ℕ → α) (n : ℕ) :
    ∃ y r', callsOn ReverbEffect.process (ReverbEffect.new decay mix) x n = some (y, r') ∧
      r'.WellFormed := by
  induction n with
  | zero =>
    obtain ⟨_, _, _, _, _, _, hp, hw⟩ :=
      (ReverbEffect.new decay mix).reverb_process_of_wellFormed (x 0)
        (ReverbEffect.reverb_new_wellFormed decay mix)
    exact ⟨_, _, hp, hw⟩
  | succ m ih =>
    obtain ⟨y, r', hm, hw⟩ := ih
    obtain ⟨_, _, _, _, _, _, hp, hw'⟩ := r'.reverb_process_of_wellFormed (x (m + 1)) hw
    exact ⟨_, _, by simp only [callsOn, hm, hp]; rfl, hw'⟩

/-- C3. For every `decay`, `mix`, factor `k` and input sequence `x`, every call
`n` on a fresh `ReverbEffect(decay, mix)` fed `k * x` returns `k` times what call
`n` on a fresh `ReverbEffect(decay, mix)` fed `x` returns. -/
theorem reverb_linear [FloorRing α] (decay mix k : α) (x : ℕ → α) (n : ℕ) :
    ∃ y, outputOf ReverbEffect.process (ReverbEffect.new decay mix) x n = some y ∧
      outputOf ReverbEffect.process (ReverbEffect.new decay mix) (fun i => k * x i) n
        = some (k * y) := by
  obtain ⟨y, r', hy, _⟩ := ReverbEffect.callsOn_new decay mix x n
  refine ⟨y, by simp [outputOf, hy], ?_⟩
  have h := ReverbEffect.callsOn_scale k (ReverbEffect.new decay mix) x n
  rw [ReverbEffect.new_scale, hy] at h
  simp [outputOf, h]

/-! ## C4, C5, C6: the envelope -/

/-- C4 as stated fails: with `attack = 1` and `decay = 0` the decay branch is
empty, and at `time = attack` the release branch returns `sustain = 0.5`, not `1.0`. -/
theorem envelope_attack_counterexample :
    (0 : ℝ) < (Oscillator.mk SINE 440 1 1 0 (1 / 2) 1 1 : Oscillator ℝ).attack ∧
    (Oscillator.mk SINE 440 1 1 0 (1 / 2) 1 1 : Oscillator ℝ).time
      = (Oscillator.mk SINE 440 1 1 0 (1 / 2) 1 1 : Oscillator ℝ).attack ∧
    (Oscillator.mk SINE 440 1 1 0 (1 / 2) 1 1 : Oscillator ℝ).getEnvelope Real.exp = 1 / 2 ∧
    (Oscillator.mk SINE 440 1 1 0 (1 / 2) 1 1 : Oscillator ℝ).getEnvelope Real.exp ≠ 1 := by
  have h : (Oscillator.mk SINE 440 1 1 0 (1 / 2) 1 1 : Oscillator ℝ).getEnvelope Real.exp
      = 1 / 2 := by
    simp [Oscillator.getEnvelope]
  refine ⟨by norm_num, rfl, h, ?_⟩
  rw [h]
  norm_num

/-- C4, amended. For every `Oscillator` with `attack > 0`, `getEnvelope` returns
`time / attack` whenever `0 ≤ time < attack`; when moreover `decay > 0`, it
returns `1` at `time = attack`. -/
theorem envelope_attack (exp : α → α) (o : Oscillator α) (_ha : 0 < o.attack) :
    (0 ≤ o.time → o.time < o.attack → o.getEnvelope exp = o.time / o.attack) ∧
    (0 < o.decay → o.time = o.attack → o.getEnvelope exp = 1) := by
  constructor
  · intro _ ht
    simp [Oscillator.getEnvelope, ht]
  · intro hd ht
    have h1 : ¬ o.time < o.attack := by rw [ht]; exact lt_irrefl _
    have h2 : o.time < o.attack + o.decay := by rw [ht]; linarith
    rw [Oscillator.getEnvelope, if_neg h1, if_pos h2, ht]
    simp

/-- C4, amended, at `attack = 0.01`, `decay = 0.01`, `sustain = 0.8`: the
envelope is `0.5` at `time = 0.005` and `1` at `time = 0.01`. -/
theorem envelope_attack_witness :
    (0 : ℝ) < (Oscillator.mk SINE 440 1 0.01 0.01 0.8 1 0.005 : Oscillator ℝ).attack ∧
    (Oscillator.mk SINE 440 1 0.01 0.01 0.8 1 0.005 : Oscillator ℝ).getEnvelope Real.exp
      = 0.005 / 0.01 ∧
    (Oscillator.mk SINE 440 1 0.01 0.01 0.8 1 0.01 : Oscillator ℝ).getEnvelope Real.exp = 1 :=
  ⟨by norm_num,
    (envelope_attack Real.exp (Oscillator.mk SINE 440 1 0.01 0.01 0.8 1 0.005) (by norm_num)).1
      (by norm_num) (by norm_num),
    (envelope_attack Real.exp (Oscillator.mk SINE 440 1 0.01 0.01 0.8 1 0.01) (by norm_num)).2
      (by norm_num) rfl⟩

/-- C5. For every `Oscillator` with `attack > 0` and `decay > 0`, every `sustain`
and every `release`, `getEnvelope` at `time = attack + decay` returns `sustain`. -/
theorem envelope_decay_to_sustain (o : Oscillator ℝ) (_ha : 0 < o.attack)
    (hd : 0 < o.decay) (ht : o.time = o.attack + o.decay) :
    o.getEnvelope Real.exp = o.sustain := by
  have h1 : ¬ o.time < o.attack := by rw [ht]; linarith
  have h2 : ¬ o.time < o.attack + o.decay := by rw [ht]; exact lt_irrefl _
  rw [Oscillator.getEnvelope, if_neg h1, if_neg h2, ht]
  simp

/-- C5 at `attack = 0.01`, `decay = 0.01`, `sustain = 0.8`: the envelope at
`time = 0.02` is `0.8`. -/
theorem envelope_decay_to_sustain_witness :
    (Oscillator.mk SINE 440 1 0.01 0.01 0.8 1 0.02 : Oscillator ℝ).getEnvelope Real.exp
      = 0.8 :=
  envelope_decay_to_sustain (Oscillator.mk SINE 440 1 0.01 0.01 0.8 1 0.02)
    (by norm_num) (by norm_num) (by norm_num)

/-- C6. For every waveform type, frequency, amplitude, decay, sustain and
release, the first `getSample` of a newly constructed `Oscillator` with
`attack > 0` returns `0`. -/
theorem first_sample_zero [FloorRing α] (exp sin : α → α) (pi : α) (type : WaveType)
    (frequency amplitude attack decay sustain release : α) (ha : 0 < attack) :
    ((Oscillator.new type frequency amplitude attack decay sustain release).getSample
      exp sin pi).1 = 0 := by
  simp [Oscillator.getSample, Oscillator.getEnvelope, Oscillator.new, ha]

/-- C6 for a 440 Hz sine, square and sawtooth voice with `attack = 0.01`. -/
theorem first_sample_zero_witness :
    ((Oscillator.new SINE (440 : ℝ) 1 0.01 0.01 0.8 1).getSample
      Real.exp Real.sin Real.pi).1 = 0 ∧
    ((Oscillator.new SQUARE (440 : ℝ) 1 0.01 0.01 0.8 1).getSample
      Real.exp Real.sin Real.pi).1 = 0 ∧
    ((Oscillator.new SAWTOOTH (440 : ℝ) 1 0.01 0.01 0.8 1).getSample
      Real.exp Real.sin Real.pi).1 = 0 :=
  ⟨first_sample_zero Real.exp Real.sin Real.pi SINE 440 1 0.01 0.01 0.8 1 (by norm_num),
    first_sample_zero Real.exp Real.sin Real.pi SQUARE 440 1 0.01 0.01 0.8 1 (by norm_num),
    first_sample_zero Real.exp Real.sin Real.pi SAWTOOTH 440 1 0.01 0.01 0.8 1 (by norm_num)⟩

/-! ## C7: the comb filter with `decay = 0` -/

theorem CombFilter.After.comb_step {L : ℕ} {decay : α} {x : ℕ → α} {n : ℕ}
    {c : CombFilter α} (h : CombFilter.After L decay x n c) (hL : 0 < L) :
    ∃ c', c.process (x n) = some (ringRead L decay x n, c') ∧
      CombFilter.After L decay x (n + 1) c' := by
  obtain ⟨hg, hs, hring⟩ := h
  have hi := hring.index_lt hL
  have hr := hring.read hL hi
  have hL0 : L ≠ 0 := by omega
  refine ⟨{ c with
      buffer := c.buffer.set c.bufferIndex (x n + ringRead L decay x n * decay)
      bufferIndex := (c.bufferIndex + 1) % L }, ?_, ?_⟩
  · simp only [CombFilter.process, dif_pos hi, hr, hg, hs, if_neg hL0]
  · exact ⟨hg, hs, hring.ring_step hL⟩

/-- The value returned by call `n` of a fresh `CombFilter`. -/
theorem CombFilter.comb_output_fresh [FloorRing α] (delayTime decay : α) (x : ℕ → α)
    (hL : 0 < ⌊delayTime * 44100⌋₊) (n : ℕ) :
    outputOf CombFilter.process (CombFilter.new delayTime decay) x n
      = some (ringRead ⌊delayTime * 44100⌋₊ decay x n) :=
  outputOf_of_invariant CombFilter.process
    (CombFilter.After ⌊delayTime * 44100⌋₊ decay x) _ _ x
    ⟨rfl, rfl, RingAt.ring_fresh _ decay x⟩ (fun _ _ h => h.comb_step hL) n

/-- C7. For every delay time `d` with `L = ⌊d * 44100⌋ ≥ 1`, a fresh
`CombFilter(d, 0)` fed the unit impulse returns `1` on call `L` and `0` on every
other call. -/
theorem comb_pure_delay [FloorRing α] (delayTime : α) (n : ℕ)
    (hL : 1 ≤ ⌊delayTime * 44100⌋₊) :
    outputOf CombFilter.process (CombFilter.new delayTime 0) impulse n
      = some (if n = ⌊delayTime * 44100⌋₊ then 1 else 0) := by
  rw [CombFilter.comb_output_fresh delayTime 0 impulse hL n, ringRead_zero_coeff _ impulse n hL]
  congr 1
  by_cases h1 : n < ⌊delayTime * 44100⌋₊
  · rw [if_pos h1, if_neg (by omega)]
  · by_cases h2 : n = ⌊delayTime * 44100⌋₊
    · simp [impulse, h2]
    · rw [if_neg h1, if_neg h2]
      simp only [impulse]
      rw [if_neg (by omega)]

/-- C7 for `CombFilter(0.0297, 0)`, the first comb filter of the reverb with
`decay = 0`: buffer length 1309, `1` on call 1309, `0` on calls 0, 1308 and 1310. -/
theorem comb_pure_delay_witness :
    ⌊(0.0297 : ℚ) * 44100⌋₊ = 1309 ∧
    outputOf CombFilter.process (CombFilter.new (0.0297 : ℚ) 0) impulse 0 = some 0 ∧
    outputOf CombFilter.process (CombFilter.new (0.0297 : ℚ) 0) impulse 1308 = some 0 ∧
    outputOf CombFilter.process (CombFilter.new (0.0297 : ℚ) 0) impulse 1309 = some 1 ∧
    outputOf CombFilter.process (CombFilter.new (0.0297 : ℚ) 0) impulse 1310 = some 0 := by
  have hf : ⌊(0.0297 : ℚ) * 44100⌋₊ = 1309 := by
    rw [Nat.floor_eq_iff (by norm_num)]
    constructor <;> norm_num
  have h := fun n => comb_pure_delay (0.0297 : ℚ) n (by rw [hf]; norm_num)
  simp only [hf] at h
  refine ⟨hf, ?_, ?_, ?_, ?_⟩
  · simpa using h 0
  · simpa using h 1308
  · simpa using h 1309
  · simpa using h 1310

/-! ## C8, C9: the all-pass filter on the unit impulse -/

theorem AllPassFilter.After.allPass_step {L : ℕ} {decay : α} {x : ℕ → α} {n : ℕ}
    {a : AllPassFilter α} (h : AllPassFilter.After L decay x n a) (hL : 0 < L) :
    ∃ a', a.process (x n) = some (-x n + ringRead L decay x n, a') ∧
      AllPassFilter.After L decay x (n + 1) a' := by
  obtain ⟨hg, hs, hring⟩ := h
  have hi := hring.index_lt hL
  have hr := hring.read hL hi
  have hL0 : L ≠ 0 := by omega
  refine ⟨{ a with
      buffer := a.buffer.set a.bufferIndex (x n + ringRead L decay x n * decay)
      bufferIndex := (a.bufferIndex + 1) % L }, ?_, ?_⟩
  · simp only [AllPassFilter.process, dif_pos hi, hr, hg, hs, if_neg hL0]
  · exact ⟨hg, hs, hring.ring_step hL⟩

/-- The value returned by call `n` of a fresh `AllPassFilter`. -/
theorem AllPassFilter.allPass_output_fresh [FloorRing α] (delayTime decay : α) (x : ℕ → α)
    (hL : 0 < ⌊delayTime * 44100⌋₊) (n : ℕ) :
    outputOf AllPassFilter.process (AllPassFilter.new delayTime decay) x n
      = some (-x n + ringRead ⌊delayTime * 44100⌋₊ decay x n) :=
  outputOf_of_invariant AllPassFilter.process
    (AllPassFilter.After ⌊delayTime * 44100⌋₊ decay x) _ _ x
    ⟨rfl, rfl, RingAt.ring_fresh _ decay x⟩ (fun _ _ h => h.allPass_step hL) n

/-- On the unit impulse the ring holds `g ^ k` at call `(k + 1) * L`. -/
theorem ringRead_impulse_mul (L : ℕ) (g : α) (hL : 0 < L) (k : ℕ) :
    ringRead L g impulse ((k + 1) * L) = g ^ k := by
  induction k with
  | zero =>
    have h := ringRead_add L g impulse 0 hL
    rw [ringRead_lt L g impulse 0 hL] at h
    simpa [impulse] using h
  | succ m ih =>
    have h := ringRead_add L g impulse ((m + 1) * L) hL
    have he : (m + 1) * L + L = (m + 1 + 1) * L := by ring
    have hne : (m + 1) * L ≠ 0 := by positivity
    rw [he, ih] at h
    rw [h, pow_succ]
    simp [impulse, hne]

/-- On the unit impulse the ring holds `0` at every call that is not a
multiple of `L`. -/
theorem ringRead_impulse_not_dvd (L : ℕ) (g : α) (n : ℕ) (hn : ¬ L ∣ n) :
    ringRead L g impulse n = 0 := by
  induction n using Nat.strong_induction_on with
  | _ n ih =>
    by_cases h : 0 < L ∧ L ≤ n
    · have hsub : ¬ L ∣ n - L := by
        intro hd
        have hsum := Nat.dvd_add hd (dvd_refl L)
        rw [Nat.sub_add_cancel h.2] at hsum
        exact hn hsum
      have hne : n - L ≠ 0 := fun h0 => hsub (h0 ▸ dvd_zero L)
      rw [ringRead_ge L g impulse n h.1 h.2, ih (n - L) (by omega) hsub]
      simp [impulse, hne]
    · rw [ringRead, dif_neg h]

/-- C9. For every buffer length `L ≥ 1` and every decay `g`, a fresh
`AllPassFilter` fed the unit impulse returns `-1` on call 0, `g ^ (k - 1)` on
call `k * L` for every `k ≥ 1`, and `0` on every other call. -/
theorem allpass_impulse_response [FloorRing α] (delayTime g : α)
    (hL : 1 ≤ ⌊delayTime * 44100⌋₊) :
    outputOf AllPassFilter.process (AllPassFilter.new delayTime g) impulse 0 = some (-1) ∧
    (∀ k, 1 ≤ k →
      outputOf AllPassFilter.process (AllPassFilter.new delayTime g) impulse
        (k * ⌊delayTime * 44100⌋₊) = some (g ^ (k - 1))) ∧
    (∀ n, ¬ ⌊delayTime * 44100⌋₊ ∣ n →
      outputOf AllPassFilter.process (AllPassFilter.new delayTime g) impulse n = some 0) := by
  refine ⟨?_, ?_, ?_⟩
  · rw [AllPassFilter.allPass_output_fresh delayTime g impulse hL 0, ringRead_lt _ g impulse 0 hL]
    simp [impulse]
  · intro k hk
    obtain ⟨m, rfl⟩ : ∃ m, k = m + 1 := ⟨k - 1, by omega⟩
    have hne : (m + 1) * ⌊delayTime * 44100⌋₊ ≠ 0 := by positivity
    rw [AllPassFilter.allPass_output_fresh delayTime g impulse hL, ringRead_impulse_mul _ g hL m]
    simp [impulse, hne]
  · intro n hn
    have hne : n ≠ 0 := fun h0 => hn (h0 ▸ dvd_zero _)
    rw [AllPassFilter.allPass_output_fresh delayTime g impulse hL, ringRead_impulse_not_dvd _ g n hn]
    simp [impulse, hne]

/-- C9 for `AllPassFilter(0.0017, 0.7)`, the second all-pass filter of the
reverb: buffer length 74, `-1` on call 0, `1` on call 74, `0.7` on call 148,
`0.49` on call 222, `0` on calls 1 and 75. -/
theorem allpass_impulse_response_witness :
    ⌊(0.0017 : ℚ) * 44100⌋₊ = 74 ∧
    outputOf AllPassFilter.process (AllPassFilter.new (0.0017 : ℚ) 0.7) impulse 0
      = some (-1) ∧
    outputOf AllPassFilter.process (AllPassFilter.new (0.0017 : ℚ) 0.7) impulse 74
      = some 1 ∧
    outputOf AllPassFilter.process (AllPassFilter.new (0.0017 : ℚ) 0.7) impulse 148
      = some 0.7 ∧
    outputOf AllPassFilter.process (AllPassFilter.new (0.0017 : ℚ) 0.7) impulse 222
      = some 0.49 ∧
    outputOf AllPassFilter.process (AllPassFilter.new (0.0017 : ℚ) 0.7) impulse 1
      = some 0 ∧
    outputOf AllPassFilter.process (AllPassFilter.new (0.0017 : ℚ) 0.7) impulse 75
      = some 0 := by
  have hf : ⌊(0.0017 : ℚ) * 44100⌋₊ = 74 := by
    rw [Nat.floor_eq_iff (by norm_num)]
    constructor <;> norm_num
  have h := allpass_impulse_response (0.0017 : ℚ) 0.7 (by rw [hf]; norm_num)
  simp only [hf] at h
  obtain ⟨h0, hk, hn⟩ := h
  refine ⟨hf, h0, ?_, ?_, ?_, hn 1 (by norm_num), hn 75 (by norm_num)⟩
  · simpa using hk 1 (le_refl 1)
  · simpa using hk 2 (by norm_num)
  · have h3 := hk 3 (by norm_num)
    rw [show (0.7 : ℚ) ^ (3 - 1) = 0.49 by norm_num] at h3
    exact h3

/-- A fresh `AllPassFilter` fed the unit impulse returns `-1` on call 0 and `0`
on the calls 1 to `L - 1`. -/
theorem AllPassFilter.impulse_output_lt [FloorRing α] (delayTime g : α) (n : ℕ)
    (hn : n < ⌊delayTime * 44100⌋₊) :
    outputOf AllPassFilter.process (AllPassFilter.new delayTime g) impulse n
      = some (if n = 0 then -1 else 0) := by
  rw [AllPassFilter.allPass_output_fresh delayTime g impulse (by omega) n,
    ringRead_lt _ g impulse n hn]
  by_cases h0 : n = 0 <;> simp [impulse, h0]

/-- A fresh `AllPassFilter` fed the unit impulse returns `1` on call `L`. -/
theorem AllPassFilter.impulse_output_period [FloorRing α] (delayTime g : α)
    (hL : 1 ≤ ⌊delayTime * 44100⌋₊) :
    outputOf AllPassFilter.process (AllPassFilter.new delayTime g) impulse
      ⌊delayTime * 44100⌋₊ = some 1 := by
  have hr := ringRead_impulse_mul ⌊delayTime * 44100⌋₊ g hL 0
  rw [zero_add, one_mul, pow_zero] at hr
  have hne : ⌊delayTime * 44100⌋₊ ≠ 0 := by omega
  rw [AllPassFilter.allPass_output_fresh delayTime g impulse hL, hr]
  simp [impulse, hne]

/-- The squared outputs of the calls 0 to `N` of a fresh `AllPassFilter` on the
unit impulse sum to `1` as long as `N < L`. -/
theorem AllPassFilter.squaredOutputSum_lt [FloorRing α] (delayTime g : α) (N : ℕ)
    (hN : N < ⌊delayTime * 44100⌋₊) :
    squaredOutputSum AllPassFilter.process (AllPassFilter.new delayTime g) impulse (N + 1)
      = some 1 := by
  induction N with
  | zero => simp [squaredOutputSum, AllPassFilter.impulse_output_lt delayTime g 0 hN]
  | succ M ih =>
    rw [squaredOutputSum, ih (by omega), AllPassFilter.impulse_output_lt delayTime g (M + 1) hN]
    simp

/-- After the call `L` the squared outputs of a fresh `AllPassFilter` on the
unit impulse sum to `2`, for every decay `g`. -/
theorem AllPassFilter.squaredOutputSum_period [FloorRing α] (delayTime g : α)
    (hL : 1 ≤ ⌊delayTime * 44100⌋₊) :
    squaredOutputSum AllPassFilter.process (AllPassFilter.new delayTime g) impulse
      (⌊delayTime * 44100⌋₊ + 1) = some 2 := by
  have h1 := AllPassFilter.impulse_output_period delayTime g hL
  obtain ⟨M, hM⟩ : ∃ M, ⌊delayTime * 44100⌋₊ = M + 1 := ⟨_, (Nat.sub_add_cancel hL).symm⟩
  rw [squaredOutputSum, h1, hM, AllPassFilter.squaredOutputSum_lt delayTime g M (by omega)]
  norm_num

/-- C8 fails on the code. `AllPassFilter(0.005, 0.7)`, the first all-pass filter
of the reverb, has buffer length 220; fed the unit impulse it returns `-1` on
call 0 and `1` on call 220, so the squared outputs of calls 0 to 220 sum to `2`,
which exceeds the energy `1` of the impulse. -/
theorem allpass_energy_exceeds_one :
    ⌊(0.005 : ℚ) * 44100⌋₊ = 220 ∧
    outputOf AllPassFilter.process (AllPassFilter.new (0.005 : ℚ) 0.7) impulse 0
      = some (-1) ∧
    outputOf AllPassFilter.process (AllPassFilter.new (0.005 : ℚ) 0.7) impulse 220
      = some 1 ∧
    squaredOutputSum AllPassFilter.process (AllPassFilter.new (0.005 : ℚ) 0.7) impulse 221
      = some 2 ∧
    ¬ ∀ e, squaredOutputSum AllPassFilter.process (AllPassFilter.new (0.005 : ℚ) 0.7)
      impulse 221 = some e → e ≤ 1 := by
  have hf : ⌊(0.005 : ℚ) * 44100⌋₊ = 220 := by
    rw [Nat.floor_eq_iff (by norm_num)]
    constructor <;> norm_num
  have hL : 1 ≤ ⌊(0.005 : ℚ) * 44100⌋₊ := by rw [hf]; norm_num
  have hs := AllPassFilter.squaredOutputSum_period (0.005 : ℚ) 0.7 hL
  have h0 := AllPassFilter.impulse_output_lt (0.005 : ℚ) 0.7 0 (by omega)
  have h1 := AllPassFilter.impulse_output_period (0.005 : ℚ) 0.7 hL
  simp only [hf] at hs h1
  refine ⟨hf, by simpa using h0, h1, hs, ?_⟩
  intro hall
  have := hall 2 hs
  norm_num at this

/-! ## C10: `addOscillator` -/

/-- C10 as stated fails: a call of `addOscillator` with `attack = 0` and
`decay = 0` on the initial engine is not rejected; the collection, empty
before, holds the new oscillator afterwards. -/
theorem addOscillator_validation_counterexample :
    ((0 : ℚ) ≤ 0 ∨ (0 : ℚ) ≤ 0) ∧
    (Engine.initial : Engine ℚ).oscillators = [] ∧
    (addOscillator 0 (440 : ℚ) 1 0 0 (4 / 5) 1 Engine.initial).oscillators
      = [Oscillator.mk SINE 440 1 0 0 (4 / 5) 1 0] ∧
    (addOscillator 0 (440 : ℚ) 1 0 0 (4 / 5) 1 Engine.initial).oscillators
      ≠ (Engine.initial : Engine ℚ).oscillators := by
  refine ⟨Or.inl (le_refl 0), rfl, rfl, ?_⟩
  simp [addOscillator, Engine.initial]

/-- C10, amended. `addOscillator` has no validation and no error path: every
call, whatever `attack` and `decay` are, appends one `Oscillator` with the given
parameters and `time = 0` at the end of the collection, and leaves the earlier
entries, the delay and the reverb as they were. -/
theorem addOscillator_appends (type : Int)
    (frequency amplitude attack decay sustain release : α) (e : Engine α) :
    (addOscillator type frequency amplitude attack decay sustain release e).oscillators
      = e.oscillators ++
        [Oscillator.mk type frequency amplitude attack decay sustain release 0] ∧
    (addOscillator type frequency amplitude attack decay sustain release e).oscillators.length
      = e.oscillators.length + 1 ∧
    (addOscillator type frequency amplitude attack decay sustain release e).delay = e.delay ∧
    (addOscillator type frequency amplitude attack decay sustain release e).reverb
      = e.reverb := by
  refine ⟨rfl, ?_, rfl, rfl⟩
  simp [addOscillator]

/-! ## C11, C13: `setDelayParameters` -/

/-- C11 as stated fails: `setDelayParameters(0, 0.5, 0.5)` on the initial engine
has `⌊0 * 44100⌋ = 0 < 1` and is not rejected. The delay, which had a buffer of
22050 entries, is replaced by one with an empty buffer, on which `process` has
no defined result. -/
theorem setDelayParameters_validation_counterexample :
    ⌊(0 : ℚ) * 44100⌋₊ < 1 ∧
    (Engine.initial : Engine ℚ).delay.buffer.length = 22050 ∧
    (setDelayParameters (0 : ℚ) 0.5 0.5 Engine.initial).delay.buffer.length = 0 ∧
    (setDelayParameters (0 : ℚ) 0.5 0.5 Engine.initial).delay
      ≠ (Engine.initial : Engine ℚ).delay ∧
    ¬ 1 ≤ (setDelayParameters (0 : ℚ) 0.5 0.5 Engine.initial).delay.buffer.length ∧
    (setDelayParameters (0 : ℚ) 0.5 0.5 Engine.initial).delay.process 1 = none := by
  have hf : ⌊(0.5 : ℚ) * 44100⌋₊ = 22050 := by
    rw [Nat.floor_eq_iff (by norm_num)]
    constructor <;> norm_num
  have h0 : (setDelayParameters (0 : ℚ) 0.5 0.5 Engine.initial).delay.buffer.length = 0 := by
    simp [setDelayParameters, DelayEffect.new]
  have h1 : (Engine.initial : Engine ℚ).delay.buffer.length = 22050 := by
    show (List.replicate ⌊(0.5 : ℚ) * 44100⌋₊ (0 : ℚ)).length = 22050
    rw [List.length_replicate, hf]
  refine ⟨by simp, h1, h0, ?_, by rw [h0]; norm_num, ?_⟩
  · intro h
    rw [h, h1] at h0
    norm_num at h0
  · simp [setDelayParameters, DelayEffect.new, DelayEffect.process]

/-- C11, amended. A call of `setDelayParameters` with `delayTime ≥ 0` and
`⌊delayTime * 44100⌋ < 1` is not rejected: the active `DelayEffect` is replaced
by a fresh one with the given parameters, an empty buffer, `bufferSize = 0` and
cursor 0, while the oscillators and the reverb stay as they were; so the active
`DelayEffect` then has buffer length 0, not at least 1. Nothing is said about a
negative `delayTime`. -/
theorem setDelayParameters_replaces [FloorRing α] (delayTime feedback mix : α)
    (e : Engine α) (_h0 : 0 ≤ delayTime) (hL : ⌊delayTime * 44100⌋₊ < 1) :
    (setDelayParameters delayTime feedback mix e).delay
      = { delayTime := delayTime, feedback := feedback, mix := mix,
          buffer := [], bufferSize := 0, bufferIndex := 0 } ∧
    (setDelayParameters delayTime feedback mix e).oscillators = e.oscillators ∧
    (setDelayParameters delayTime feedback mix e).reverb = e.reverb ∧
    (setDelayParameters delayTime feedback mix e).delay.buffer.length = 0 ∧
    ¬ 1 ≤ (setDelayParameters delayTime feedback mix e).delay.buffer.length := by
  have hz : ⌊delayTime * 44100⌋₊ = 0 := Nat.lt_one_iff.mp hL
  have hd : (setDelayParameters delayTime feedback mix e).delay
      = { delayTime := delayTime, feedback := feedback, mix := mix,
          buffer := [], bufferSize := 0, bufferIndex := 0 } := by
    simp only [setDelayParameters, DelayEffect.new, hz, List.replicate_zero]
  refine ⟨hd, rfl, rfl, ?_, ?_⟩
  · rw [hd]
    rfl
  · rw [hd]
    simp

/-- C11, amended, on an engine whose delay buffer holds `[5, 6, 7]`:
`setDelayParameters(1/88200, 0.25, 0.75)`, for which `delayTime * 44100 = 0.5`,
leaves a delay with an empty buffer and keeps the oscillators. -/
theorem setDelayParameters_replaces_witness :
    (0 : ℚ) ≤ 1 / 88200 ∧ ⌊(1 / 88200 : ℚ) * 44100⌋₊ < 1 ∧
    (setDelayParameters (1 / 88200 : ℚ) 0.25 0.75
      { oscillators := [Oscillator.new SINE 440 1 0.01 0.01 0.8 1],
        delay := { delayTime := 3 / 44100, feedback := 0.5, mix := 0.5,
                   buffer := [5, 6, 7], bufferSize := 3, bufferIndex := 2 },
        reverb := ReverbEffect.new 0.7 0.5 }).delay
      = { delayTime := 1 / 88200, feedback := 0.25, mix := 0.75,
          buffer := [], bufferSize := 0, bufferIndex := 0 } ∧
    (setDelayParameters (1 / 88200 : ℚ) 0.25 0.75
      { oscillators := [Oscillator.new SINE 440 1 0.01 0.01 0.8 1],
        delay := { delayTime := 3 / 44100, feedback := 0.5, mix := 0.5,
                   buffer := [5, 6, 7], bufferSize := 3, bufferIndex := 2 },
        reverb := ReverbEffect.new 0.7 0.5 }).oscillators
      = [Oscillator.new SINE 440 1 0.01 0.01 0.8 1] := by
  have h0 : (0 : ℚ) ≤ 1 / 88200 := by norm_num
  have hf : ⌊(1 / 88200 : ℚ) * 44100⌋₊ < 1 := by
    rw [Nat.lt_one_iff, Nat.floor_eq_zero]
    norm_num
  have h := setDelayParameters_replaces (1 / 88200 : ℚ) 0.25 0.75
    { oscillators := [Oscillator.new SINE 440 1 0.01 0.01 0.8 1],
      delay := { delayTime := 3 / 44100, feedback := 0.5, mix := 0.5,
                 buffer := [5, 6, 7], bufferSize := 3, bufferIndex := 2 },
      reverb := ReverbEffect.new 0.7 0.5 } h0 hf
  exact ⟨h0, hf, h.1, h.2.1⟩

/-- C13. For every `delayTime` with `⌊delayTime * 44100⌋ ≥ 1`, every `feedback`
and `mix` and every prior engine state, `setDelayParameters` leaves the active
`DelayEffect` with the given parameters, a buffer of exactly
`⌊delayTime * 44100⌋` zeros and cursor 0, and leaves the oscillator collection
and the active `ReverbEffect` unchanged. -/
theorem setDelayParameters_whole_object [FloorRing α] (delayTime feedback mix : α)
    (e : Engine α) (_hL : 1 ≤ ⌊delayTime * 44100⌋₊) :
    (setDelayParameters delayTime feedback mix e).delay.delayTime = delayTime ∧
    (setDelayParameters delayTime feedback mix e).delay.feedback = feedback ∧
    (setDelayParameters delayTime feedback mix e).delay.mix = mix ∧
    (setDelayParameters delayTime feedback mix e).delay.buffer
      = List.replicate ⌊delayTime * 44100⌋₊ 0 ∧
    (setDelayParameters delayTime feedback mix e).delay.buffer.length
      = ⌊delayTime * 44100⌋₊ ∧
    (∀ v ∈ (setDelayParameters delayTime feedback mix e).delay.buffer, v = 0) ∧
    (setDelayParameters delayTime feedback mix e).delay.bufferSize
      = ⌊delayTime * 44100⌋₊ ∧
    (setDelayParameters delayTime feedback mix e).delay.bufferIndex = 0 ∧
    (setDelayParameters delayTime feedback mix e).oscillators = e.oscillators ∧
    (setDelayParameters delayTime feedback mix e).reverb = e.reverb := by
  refine ⟨rfl, rfl, rfl, rfl, ?_, ?_, rfl, rfl, rfl, rfl⟩
  · simp [setDelayParameters, DelayEffect.new]
  · intro v hv
    simp only [setDelayParameters, DelayEffect.new] at hv
    exact List.eq_of_mem_replicate hv

/-- C13 on an engine whose delay buffer holds `[5, 6, 7]`: after
`setDelayParameters(2/44100, 0.25, 0.75)` the buffer is `[0, 0]`, the cursor is 0
and the oscillators and the reverb are the same. -/
theorem setDelayParameters_whole_object_witness :
    1 ≤ ⌊(2 / 44100 : ℚ) * 44100⌋₊ ∧
    (setDelayParameters (2 / 44100 : ℚ) 0.25 0.75
      { oscillators := [Oscillator.new SINE 440 1 0.01 0.01 0.8 1],
        delay := { delayTime := 3 / 44100, feedback := 0.5, mix := 0.5,
                   buffer := [5, 6, 7], bufferSize := 3, bufferIndex := 2 },
        reverb := ReverbEffect.new 0.7 0.5 }).delay
      = { delayTime := 2 / 44100, feedback := 0.25, mix := 0.75,
          buffer := [0, 0], bufferSize := 2, bufferIndex := 0 } ∧
    (setDelayParameters (2 / 44100 : ℚ) 0.25 0.75
      { oscillators := [Oscillator.new SINE 440 1 0.01 0.01 0.8 1],
        delay := { delayTime := 3 / 44100, feedback := 0.5, mix := 0.5,
                   buffer := [5, 6, 7], bufferSize := 3, bufferIndex := 2 },
        reverb := ReverbEffect.new 0.7 0.5 }).oscillators
      = [Oscillator.new SINE 440 1 0.01 0.01 0.8 1] := by
  have hf : ⌊(2 / 44100 : ℚ) * 44100⌋₊ = 2 := by norm_num
  have h := setDelayParameters_whole_object (2 / 44100 : ℚ) 0.25 0.75
    { oscillators := [Oscillator.new SINE 440 1 0.01 0.01 0.8 1],
      delay := { delayTime := 3 / 44100, feedback := 0.5, mix := 0.5,
                 buffer := [5, 6, 7], bufferSize := 3, bufferIndex := 2 },
      reverb := ReverbEffect.new 0.7 0.5 } (by rw [hf]; norm_num)
  obtain ⟨h1, h2, h3, h4, _, _, h7, h8, h9, _⟩ := h
  refine ⟨by rw [hf]; norm_num, ?_, h9⟩
  rw [hf] at h4 h7
  generalize (setDelayParameters (2 / 44100 : ℚ) 0.25 0.75 _).delay = d at h1 h2 h3 h4 h7 h8
  cases d
  simp only at h1 h2 h3 h4 h7 h8
  subst h1 h2 h3 h4 h7 h8
  rfl

/-! ## C14: the comb recurrence -/

/-- C14. For every `CombFilter` freshly constructed with buffer length `L ≥ 1`
and any `decay`, and every input sequence `x`, call `n` of `process` returns `0`
for `n < L` and `x (n - L) + decay * y` for `n ≥ L`, where `y` is what call
`n - L` returned: the value written to the buffer `L` calls earlier. -/
theorem comb_recurrence [FloorRing α] (delayTime decay : α) (x : ℕ → α)
    (hL : 1 ≤ ⌊delayTime * 44100⌋₊) :
    (∀ n, n < ⌊delayTime * 44100⌋₊ →
      outputOf CombFilter.process (CombFilter.new delayTime decay) x n = some 0) ∧
    (∀ n, ⌊delayTime * 44100⌋₊ ≤ n → ∃ y,
      outputOf CombFilter.process (CombFilter.new delayTime decay) x
        (n - ⌊delayTime * 44100⌋₊) = some y ∧
      outputOf CombFilter.process (CombFilter.new delayTime decay) x n
        = some (x (n - ⌊delayTime * 44100⌋₊) + decay * y)) := by
  constructor
  · intro n hn
    rw [CombFilter.comb_output_fresh delayTime decay x hL n, ringRead_lt _ decay x n hn]
  · intro n hn
    refine ⟨_, CombFilter.comb_output_fresh delayTime decay x hL _, ?_⟩
    rw [CombFilter.comb_output_fresh delayTime decay x hL n,
      ringRead_ge _ decay x n hL hn, mul_comm (ringRead _ _ _ _) decay]

/-- C14 for `CombFilter(0.0297, 0.5)` (buffer length 1309) on the unit impulse:
`0` on call 0, `1` on call 1309, `0.5` on call 2618. -/
theorem comb_recurrence_witness :
    1 ≤ ⌊(0.0297 : ℚ) * 44100⌋₊ ∧
    outputOf CombFilter.process (CombFilter.new (0.0297 : ℚ) 0.5) impulse 0 = some 0 ∧
    outputOf CombFilter.process (CombFilter.new (0.0297 : ℚ) 0.5) impulse 1309 = some 1 ∧
    outputOf CombFilter.process (CombFilter.new (0.0297 : ℚ) 0.5) impulse 2618
      = some 0.5 := by
  have hf : ⌊(0.0297 : ℚ) * 44100⌋₊ = 1309 := by
    rw [Nat.floor_eq_iff (by norm_num)]
    constructor <;> norm_num
  have hL : 1 ≤ ⌊(0.0297 : ℚ) * 44100⌋₊ := by rw [hf]; norm_num
  obtain ⟨hlt, hge⟩ := comb_recurrence (0.0297 : ℚ) 0.5 impulse hL
  simp only [hf] at hlt hge
  have h0 := hlt 0 (by norm_num)
  obtain ⟨y1, hy1, h1⟩ := hge 1309 (le_refl _)
  obtain ⟨y2, hy2, h2⟩ := hge 2618 (by norm_num)
  have e1 : y1 = 0 := by
    rw [Nat.sub_self, h0] at hy1
    exact (Option.some.inj hy1).symm
  have h1' : outputOf CombFilter.process (CombFilter.new (0.0297 : ℚ) 0.5) impulse 1309
      = some 1 := by
    rw [h1, e1]
    simp [impulse]
  have e2 : y2 = 1 := by
    rw [show 2618 - 1309 = 1309 by norm_num, h1'] at hy2
    exact (Option.some.inj hy2).symm
  refine ⟨hL, h0, h1', ?_⟩
  rw [h2, e2]
  simp [impulse]

/-! ## C16: the sawtooth -/

/-- The sawtooth formula of `getSample` at `u = time * frequency` lies in `[-1, 1)`. -/
theorem sawtooth_formula_bounds [FloorRing α] (u : α) :
    -1 ≤ 2 * (u - (⌊u + 0.5⌋ : α)) ∧ 2 * (u - (⌊u + 0.5⌋ : α)) < 1 := by
  have h1 := Int.floor_le (u + 0.5)
  have h2 := Int.lt_floor_add_one (u + 0.5)
  have h3 : (0.5 : α) = 1 / 2 := by norm_num
  rw [h3] at h1 h2 ⊢
  constructor <;> linarith

theorem Oscillator.rawValue_sawtooth [FloorRing α] (sin : α → α) (pi : α)
    (o : Oscillator α) (h : o.type = SAWTOOTH) :
    o.rawValue sin pi
      = 2 * (o.time * o.frequency - (⌊o.time * o.frequency + 0.5⌋ : α)) := by
  simp [Oscillator.rawValue, h, SAWTOOTH, SINE, SQUARE]

/-- C16. For every frequency and every time the value the `SAWTOOTH` case of
`getSample` computes, `2 * (time * frequency - floor(time * frequency + 0.5))`,
lies in `[-1, 1)`. -/
theorem sawtooth_range [FloorRing α] (sin : α → α) (pi : α) (o : Oscillator α)
    (h : o.type = SAWTOOTH) :
    o.rawValue sin pi
      = 2 * (o.time * o.frequency - (⌊o.time * o.frequency + 0.5⌋ : α)) ∧
    -1 ≤ o.rawValue sin pi ∧ o.rawValue sin pi < 1 := by
  have hraw := Oscillator.rawValue_sawtooth sin pi o h
  have hb := sawtooth_formula_bounds (o.time * o.frequency)
  rw [← hraw] at hb
  exact ⟨hraw, hb.1, hb.2⟩

/-- C16 for a 440 Hz sawtooth at `time = 1/880`, where `time * frequency = 0.5`
and the value is the lower end `-1` of the interval. -/
theorem sawtooth_range_witness :
    (Oscillator.mk SAWTOOTH (440 : ℚ) 1 0.01 0.01 0.8 1 (1 / 880)).type = SAWTOOTH ∧
    (Oscillator.mk SAWTOOTH (440 : ℚ) 1 0.01 0.01 0.8 1 (1 / 880)).rawValue
      (fun _ => 0) 3 = -1 ∧
    (Oscillator.mk SAWTOOTH (440 : ℚ) 1 0.01 0.01 0.8 1 (1 / 880)).rawValue
      (fun _ => 0) 3 < 1 := by
  obtain ⟨h1, _, h3⟩ := sawtooth_range (fun _ => 0) 3
    (Oscillator.mk SAWTOOTH (440 : ℚ) 1 0.01 0.01 0.8 1 (1 / 880)) rfl
  refine ⟨rfl, ?_, h3⟩
  rw [h1]
  norm_num

/-! ## C18: the ring cursor -/

theorem DelayEffect.delay_cursor_fresh [FloorRing α] (delayTime feedback mix : α)
    (x : ℕ → α) (n : ℕ) (hL : 1 ≤ ⌊delayTime * 44100⌋₊) :
    ∃ y d', callsOn DelayEffect.process (DelayEffect.new delayTime feedback mix) x n
        = some (y, d') ∧ d'.bufferIndex = (n + 1) % ⌊delayTime * 44100⌋₊ := by
  obtain ⟨d', hd', hinv⟩ := callsOn_of_invariant DelayEffect.process
    (DelayEffect.After ⌊delayTime * 44100⌋₊ feedback mix x) _ _ x
    (DelayEffect.After.delay_fresh delayTime feedback mix x)
    (fun _ _ h => h.delay_step hL) n
  exact ⟨_, d', hd', hinv.2.2.2.2.1⟩

theorem CombFilter.comb_cursor_fresh [FloorRing α] (delayTime decay : α)
    (x : ℕ → α) (n : ℕ) (hL : 1 ≤ ⌊delayTime * 44100⌋₊) :
    ∃ y c', callsOn CombFilter.process (CombFilter.new delayTime decay) x n
        = some (y, c') ∧ c'.bufferIndex = (n + 1) % ⌊delayTime * 44100⌋₊ := by
  obtain ⟨c', hc', hinv⟩ := callsOn_of_invariant CombFilter.process
    (CombFilter.After ⌊delayTime * 44100⌋₊ decay x) _ (CombFilter.new delayTime decay) x
    ⟨rfl, rfl, RingAt.ring_fresh _ decay x⟩ (fun _ _ h => h.comb_step hL) n
  exact ⟨_, c', hc', hinv.2.2.2.1⟩

theorem AllPassFilter.allPass_cursor_fresh [FloorRing α] (delayTime decay : α)
    (x : ℕ → α) (n : ℕ) (hL : 1 ≤ ⌊delayTime * 44100⌋₊) :
    ∃ y a', callsOn AllPassFilter.process (AllPassFilter.new delayTime decay) x n
        = some (y, a') ∧ a'.bufferIndex = (n + 1) % ⌊delayTime * 44100⌋₊ := by
  obtain ⟨a', ha', hinv⟩ := callsOn_of_invariant AllPassFilter.process
    (AllPassFilter.After ⌊delayTime * 44100⌋₊ decay x) _
    (AllPassFilter.new delayTime decay) x
    ⟨rfl, rfl, RingAt.ring_fresh _ decay x⟩ (fun _ _ h => h.allPass_step hL) n
  exact ⟨_, a', ha', hinv.2.2.2.1⟩

/-- C18. For `DelayEffect`, `CombFilter` and `AllPassFilter` alike: when
`bufferIndex < bufferSize = buffer.size()` before a call of `process`, the
access `buffer[bufferIndex]` is in bounds and the divisor of `%` is not zero, so
the call returns; afterwards the buffer has the same length, `bufferSize` is the
same, the cursor is again below it, and every cell but the one at the old
cursor is unchanged. A fresh object with buffer length `L ≥ 1` starts with
cursor 0 and has cursor `(n + 1) mod L` after the calls `0, ..., n`. -/
theorem ring_cursor_safety [FloorRing α] (d : DelayEffect α) (c : CombFilter α)
    (a : AllPassFilter α) (input delayTime feedback mix decay : α) (x : ℕ → α) (n : ℕ)
    (hd : d.WellFormed) (hc : c.WellFormed) (ha : a.WellFormed)
    (hL : 1 ≤ ⌊delayTime * 44100⌋₊) :
    (d.bufferIndex < d.buffer.length ∧ d.bufferSize ≠ 0 ∧
      ∃ y d', d.process input = some (y, d') ∧ d'.buffer.length = d.buffer.length ∧
        d'.bufferSize = d.bufferSize ∧ d'.bufferIndex < d'.bufferSize ∧
        ∀ i, i ≠ d.bufferIndex → d'.buffer[i]? = d.buffer[i]?) ∧
    (c.bufferIndex < c.buffer.length ∧ c.bufferSize ≠ 0 ∧
      ∃ y c', c.process input = some (y, c') ∧ c'.buffer.length = c.buffer.length ∧
        c'.bufferSize = c.bufferSize ∧ c'.bufferIndex < c'.bufferSize ∧
        ∀ i, i ≠ c.bufferIndex → c'.buffer[i]? = c.buffer[i]?) ∧
    (a.bufferIndex < a.buffer.length ∧ a.bufferSize ≠ 0 ∧
      ∃ y a', a.process input = some (y, a') ∧ a'.buffer.length = a.buffer.length ∧
        a'.bufferSize = a.bufferSize ∧ a'.bufferIndex < a'.bufferSize ∧
        ∀ i, i ≠ a.bufferIndex → a'.buffer[i]? = a.buffer[i]?) ∧
    ((DelayEffect.new delayTime feedback mix).bufferIndex = 0 ∧
      ∃ y d', callsOn DelayEffect.process (DelayEffect.new delayTime feedback mix) x n
        = some (y, d') ∧ d'.bufferIndex = (n + 1) % ⌊delayTime * 44100⌋₊) ∧
    ((CombFilter.new delayTime decay).bufferIndex = 0 ∧
      ∃ y c', callsOn CombFilter.process (CombFilter.new delayTime decay) x n
        = some (y, c') ∧ c'.bufferIndex = (n + 1) % ⌊delayTime * 44100⌋₊) ∧
    ((AllPassFilter.new delayTime decay).bufferIndex = 0 ∧
      ∃ y a', callsOn AllPassFilter.process (AllPassFilter.new delayTime decay) x n
        = some (y, a') ∧ a'.bufferIndex = (n + 1) % ⌊delayTime * 44100⌋₊) := by
  refine ⟨?_, ?_, ?_, ⟨rfl, DelayEffect.delay_cursor_fresh delayTime feedback mix x n hL⟩,
    ⟨rfl, CombFilter.comb_cursor_fresh delayTime decay x n hL⟩,
    ⟨rfl, AllPassFilter.allPass_cursor_fresh delayTime decay x n hL⟩⟩
  · obtain ⟨v, _, hv⟩ := d.delay_process_of_wellFormed input hd
    have hpos : 0 < d.bufferSize := by have := hd.2; omega
    refine ⟨by rw [hd.1]; exact hd.2, by omega, _, _, hv, by simp, rfl,
      Nat.mod_lt _ hpos, ?_⟩
    intro i hi
    exact List.getElem?_set_ne (Ne.symm hi)
  · obtain ⟨v, _, hv⟩ := c.comb_process_of_wellFormed input hc
    have hpos : 0 < c.bufferSize := by have := hc.2; omega
    refine ⟨by rw [hc.1]; exact hc.2, by omega, _, _, hv, by simp, rfl,
      Nat.mod_lt _ hpos, ?_⟩
    intro i hi
    exact List.getElem?_set_ne (Ne.symm hi)
  · obtain ⟨v, _, hv⟩ := a.allPass_process_of_wellFormed input ha
    have hpos : 0 < a.bufferSize := by have := ha.2; omega
    refine ⟨by rw [ha.1]; exact ha.2, by omega, _, _, hv, by simp, rfl,
      Nat.mod_lt _ hpos, ?_⟩
    intro i hi
    exact List.getElem?_set_ne (Ne.symm hi)

/-- C18 on objects with buffer `[5, 6, 7]` and cursor 2, called on the input
`1`: the cursor wraps to 0 and the cells 0 and 1 keep `5` and `6`; and on fresh
objects with `delayTime = 3/44100`, whose cursor after the calls 0 to 4 is
`5 mod 3 = 2`. -/
theorem ring_cursor_safety_witness :
    (DelayEffect.mk (3 / 44100 : ℚ) 0.5 0.5 [5, 6, 7] 3 2).WellFormed ∧
    (CombFilter.mk [5, 6, 7] 3 2 (0.5 : ℚ)).WellFormed ∧
    (AllPassFilter.mk [5, 6, 7] 3 2 (0.7 : ℚ)).WellFormed ∧
    1 ≤ ⌊(3 / 44100 : ℚ) * 44100⌋₊ ∧
    (∃ y d', (DelayEffect.mk (3 / 44100 : ℚ) 0.5 0.5 [5, 6, 7] 3 2).process 1 = some (y, d') ∧
      d'.buffer.length = 3 ∧ d'.bufferIndex < 3 ∧
      d'.buffer[0]? = some 5 ∧ d'.buffer[1]? = some 6) ∧
    (∃ y c', (CombFilter.mk [5, 6, 7] 3 2 (0.5 : ℚ)).process 1 = some (y, c') ∧
      c'.buffer.length = 3 ∧ c'.bufferIndex < 3 ∧
      c'.buffer[0]? = some 5 ∧ c'.buffer[1]? = some 6) ∧
    (∃ y a', (AllPassFilter.mk [5, 6, 7] 3 2 (0.7 : ℚ)).process 1 = some (y, a') ∧
      a'.buffer.length = 3 ∧ a'.bufferIndex < 3 ∧
      a'.buffer[0]? = some 5 ∧ a'.buffer[1]? = some 6) ∧
    (∃ y d', callsOn DelayEffect.process (DelayEffect.new (3 / 44100 : ℚ) 0.5 0.5)
      impulse 4 = some (y, d') ∧ d'.bufferIndex = 2) ∧
    (∃ y c', callsOn CombFilter.process (CombFilter.new (3 / 44100 : ℚ) 0.5)
      impulse 4 = some (y, c') ∧ c'.bufferIndex = 2) ∧
    (∃ y a', callsOn AllPassFilter.process (AllPassFilter.new (3 / 44100 : ℚ) 0.5)
      impulse 4 = some (y, a') ∧ a'.bufferIndex = 2) := by
  have hf : ⌊(3 / 44100 : ℚ) * 44100⌋₊ = 3 := by norm_num
  have hd : (DelayEffect.mk (3 / 44100 : ℚ) 0.5 0.5 [5, 6, 7] 3 2).WellFormed :=
    ⟨rfl, by norm_num⟩
  have hc : (CombFilter.mk [5, 6, 7] 3 2 (0.5 : ℚ)).WellFormed := ⟨rfl, by norm_num⟩
  have ha : (AllPassFilter.mk [5, 6, 7] 3 2 (0.7 : ℚ)).WellFormed := ⟨rfl, by norm_num⟩
  have hL : 1 ≤ ⌊(3 / 44100 : ℚ) * 44100⌋₊ := by rw [hf]; norm_num
  obtain ⟨⟨_, _, yd, d', pd, ld, sd, id, cd⟩, ⟨_, _, yc, c', pc, lc, sc, ic, cc⟩,
      ⟨_, _, ya, a', pa, la, sa, ia, ca⟩, ⟨_, fd⟩, ⟨_, fc⟩, ⟨_, fa⟩⟩ :=
    ring_cursor_safety (DelayEffect.mk (3 / 44100 : ℚ) 0.5 0.5 [5, 6, 7] 3 2)
      (CombFilter.mk [5, 6, 7] 3 2 (0.5 : ℚ)) (AllPassFilter.mk [5, 6, 7] 3 2 (0.7 : ℚ))
      1 (3 / 44100) 0.5 0.5 0.5 impulse 4 hd hc ha hL
  rw [hf] at fd fc fa
  refine ⟨hd, hc, ha, hL, ⟨yd, d', pd, ld, ?_, ?_, ?_⟩, ⟨yc, c', pc, lc, ?_, ?_, ?_⟩,
    ⟨ya, a', pa, la, ?_, ?_, ?_⟩, fd, fc, fa⟩
  · rw [sd] at id; exact id
  · rw [cd 0 (by norm_num)]; rfl
  · rw [cd 1 (by norm_num)]; rfl
  · rw [sc] at ic; exact ic
  · rw [cc 0 (by norm_num)]; rfl
  · rw [cc 1 (by norm_num)]; rfl
  · rw [sa] at ia; exact ia
  · rw [ca 0 (by norm_num)]; rfl
  · rw [ca 1 (by norm_num)]; rfl

/-! ## C17: the sequence of samples of a voice -/

theorem Oscillator.afterSamples_new [FloorRing α] (exp sin : α → α) (pi : α)
    (type : WaveType) (frequency amplitude attack decay sustain release : α) (n : ℕ) :
    (Oscillator.new type frequency amplitude attack decay sustain release).afterSamples
        exp sin pi n
      = { type := type, frequency := frequency, amplitude := amplitude, attack := attack,
          decay := decay, sustain := sustain, release := release,
          time := (n : α) / 44100 } := by
  induction n with
  | zero => simp [Oscillator.afterSamples, Oscillator.new]
  | succ k ih =>
    simp only [Oscillator.afterSamples, ih, Oscillator.getSample, Oscillator.mk.injEq,
      true_and]
    push_cast
    ring

/-- C17. For every newly constructed `Oscillator` and every `n`, after `n` calls
of `getSample` the field `time` is `n / 44100` and the other fields are the
constructor arguments, so `time` strictly increases; call `n + 1` returns
`raw * amplitude * envelope`, where `raw` is the waveform formula selected by
`type` and `envelope` is `getEnvelope`, both at `time = n / 44100`. -/
theorem voice_sample_sequence [FloorRing α] (exp sin : α → α) (pi : α)
    (type : WaveType) (frequency amplitude attack decay sustain release : α) (n : ℕ) :
    (Oscillator.new type frequency amplitude attack decay sustain release).afterSamples
        exp sin pi n
      = Oscillator.mk type frequency amplitude attack decay sustain release
          ((n : α) / 44100) ∧
    ((Oscillator.new type frequency amplitude attack decay sustain release).afterSamples
        exp sin pi n).time
      < ((Oscillator.new type frequency amplitude attack decay sustain release).afterSamples
        exp sin pi (n + 1)).time ∧
    (((Oscillator.new type frequency amplitude attack decay sustain release).afterSamples
        exp sin pi n).getSample exp sin pi).1
      = (Oscillator.mk type frequency amplitude attack decay sustain release
          ((n : α) / 44100)).rawValue sin pi * amplitude *
        (Oscillator.mk type frequency amplitude attack decay sustain release
          ((n : α) / 44100)).getEnvelope exp ∧
    (Oscillator.mk type frequency amplitude attack decay sustain release
        ((n : α) / 44100)).rawValue sin pi
      = (if type = SINE then sin (2 * pi * frequency * ((n : α) / 44100))
        else if type = SQUARE then
          (if sin (2 * pi * frequency * ((n : α) / 44100)) > 0 then 1 else -1)
        else if type = SAWTOOTH then
          2 * ((n : α) / 44100 * frequency - (⌊(n : α) / 44100 * frequency + 0.5⌋ : α))
        else 0) := by
  have h := Oscillator.afterSamples_new exp sin pi type frequency amplitude attack decay
    sustain release
  refine ⟨h n, ?_, ?_, rfl⟩
  · rw [h n, h (n + 1)]
    simp only
    push_cast
    have : (0 : α) < 1 / 44100 := by norm_num
    linarith
  · rw [h n]
    rfl

/-! ## C19: the voice output is bounded -/

theorem Oscillator.getEnvelope_mem_unit (o : Oscillator ℝ) (ha : 0 < o.attack)
    (hd : 0 < o.decay) (hs0 : 0 ≤ o.sustain) (hs1 : o.sustain ≤ 1) (hr : 0 ≤ o.release)
    (ht : 0 ≤ o.time) :
    0 ≤ o.getEnvelope Real.exp ∧ o.getEnvelope Real.exp ≤ 1 := by
  unfold Oscillator.getEnvelope
  split_ifs with h1 h2
  · exact ⟨div_nonneg ht ha.le, (div_le_one ha).mpr h1.le⟩
  · have hq0 : 0 ≤ (o.time - o.attack) / o.decay :=
      div_nonneg (by linarith) hd.le
    have hq1 : (o.time - o.attack) / o.decay ≤ 1 := (div_le_one hd).mpr (by linarith)
    have hp0 : 0 ≤ (1 - o.sustain) * ((o.time - o.attack) / o.decay) :=
      mul_nonneg (by linarith) hq0
    have hp1 : (1 - o.sustain) * ((o.time - o.attack) / o.decay) ≤ 1 - o.sustain := by
      have := mul_le_mul_of_nonneg_left hq1 (by linarith : 0 ≤ 1 - o.sustain)
      linarith
    constructor <;> linarith
  · have harg : -o.release * (o.time - o.attack - o.decay) ≤ 0 := by
      have : 0 ≤ o.release * (o.time - o.attack - o.decay) :=
        mul_nonneg hr (by linarith)
      linarith
    have he0 := Real.exp_nonneg (-o.release * (o.time - o.attack - o.decay))
    have he1 := Real.exp_le_one_iff.mpr harg
    refine ⟨mul_nonneg hs0 he0, ?_⟩
    calc o.sustain * Real.exp (-o.release * (o.time - o.attack - o.decay))
        ≤ 1 * 1 := mul_le_mul hs1 he1 he0 zero_le_one
      _ = 1 := one_mul 1

theorem Oscillator.abs_rawValue_le_one (o : Oscillator ℝ) :
    |o.rawValue Real.sin Real.pi| ≤ 1 := by
  unfold Oscillator.rawValue
  split_ifs
  · exact Real.abs_sin_le_one _
  · simp
  · simp
  · have hb := sawtooth_formula_bounds (o.time * o.frequency)
    exact abs_le.mpr ⟨hb.1, hb.2.le⟩
  · simp

/-- C19. For every `Oscillator` with `attack > 0`, `decay > 0`, `sustain` in
`[0, 1]`, `release ≥ 0` and `amplitude ≥ 0`, at every `time ≥ 0` the value of
`getEnvelope` lies in `[0, 1]` and the value `getSample` returns has absolute
value at most `amplitude`, whatever the waveform type. -/
theorem voice_output_bounded (o : Oscillator ℝ) (ha : 0 < o.attack) (hd : 0 < o.decay)
    (hs0 : 0 ≤ o.sustain) (hs1 : o.sustain ≤ 1) (hr : 0 ≤ o.release)
    (hamp : 0 ≤ o.amplitude) (ht : 0 ≤ o.time) :
    0 ≤ o.getEnvelope Real.exp ∧ o.getEnvelope Real.exp ≤ 1 ∧
    |(o.getSample Real.exp Real.sin Real.pi).1| ≤ o.amplitude := by
  obtain ⟨he0, he1⟩ := o.getEnvelope_mem_unit ha hd hs0 hs1 hr ht
  have hraw := o.abs_rawValue_le_one
  refine ⟨he0, he1, ?_⟩
  simp only [Oscillator.getSample]
  rw [abs_mul, abs_mul, abs_of_nonneg hamp, abs_of_nonneg he0]
  calc |o.rawValue Real.sin Real.pi| * o.amplitude * o.getEnvelope Real.exp
      ≤ 1 * o.amplitude * 1 :=
        mul_le_mul (mul_le_mul_of_nonneg_right hraw hamp) he1 he0
          (mul_nonneg zero_le_one hamp)
    _ = o.amplitude := by ring

/-- C19 for a 440 Hz sine, square and sawtooth voice of amplitude `0.5` with
`attack = decay = 0.01`, `sustain = 0.8`, `release = 1` at `time = 0.015`. -/
theorem voice_output_bounded_witness :
    |((Oscillator.mk SINE 440 0.5 0.01 0.01 0.8 1 0.015 : Oscillator ℝ).getSample
      Real.exp Real.sin Real.pi).1| ≤ 0.5 ∧
    |((Oscillator.mk SQUARE 440 0.5 0.01 0.01 0.8 1 0.015 : Oscillator ℝ).getSample
      Real.exp Real.sin Real.pi).1| ≤ 0.5 ∧
    |((Oscillator.mk SAWTOOTH 440 0.5 0.01 0.01 0.8 1 0.015 : Oscillator ℝ).getSample
      Real.exp Real.sin Real.pi).1| ≤ 0.5 ∧
    (Oscillator.mk SINE 440 0.5 0.01 0.01 0.8 1 0.015 : Oscillator ℝ).getEnvelope Real.exp
      ≤ 1 :=
  ⟨(voice_output_bounded (Oscillator.mk SINE 440 0.5 0.01 0.01 0.8 1 0.015)
      (by norm_num) (by norm_num) (by norm_num) (by norm_num) (by norm_num)
      (by norm_num) (by norm_num)).2.2,
    (voice_output_bounded (Oscillator.mk SQUARE 440 0.5 0.01 0.01 0.8 1 0.015)
      (by norm_num) (by norm_num) (by norm_num) (by norm_num) (by norm_num)
      (by norm_num) (by norm_num)).2.2,
    (voice_output_bounded (Oscillator.mk SAWTOOTH 440 0.5 0.01 0.01 0.8 1 0.015)
      (by norm_num) (by norm_num) (by norm_num) (by norm_num) (by norm_num)
      (by norm_num) (by norm_num)).2.2,
    (voice_output_bounded (Oscillator.mk SINE 440 0.5 0.01 0.01 0.8 1 0.015)
      (by norm_num) (by norm_num) (by norm_num) (by norm_num) (by norm_num)
      (by norm_num) (by norm_num)).2.1⟩

/-! ## C15: the delay is stable -/

/-- One call on a `DelayEffect` whose buffer is bounded by `M / (1 - |feedback|)`,
with an input bounded by `M`: the returned value and the new buffer are bounded
by `M / (1 - |feedback|)`. -/
theorem DelayEffect.BoundedBy.bounded_step {feedback mix M input : α} {d : DelayEffect α}
    (h : DelayEffect.BoundedBy feedback mix (M / (1 - |feedback|)) d)
    (hf : |feedback| < 1) (hm0 : 0 ≤ mix) (hm1 : mix ≤ 1) (hx : |input| ≤ M) :
    ∃ y d', d.process input = some (y, d') ∧ |y| ≤ M / (1 - |feedback|) ∧
      DelayEffect.BoundedBy feedback mix (M / (1 - |feedback|)) d' := by
  obtain ⟨hw, hfb, hmix, hbuf⟩ := h
  obtain ⟨v, hread, hv⟩ := d.delay_process_of_wellFormed input hw
  have hk : 0 < 1 - |feedback| := by linarith
  have hM : 0 ≤ M := le_trans (abs_nonneg input) hx
  have hB : M / (1 - |feedback|) * (1 - |feedback|) = M := div_mul_cancel₀ M hk.ne'
  have hB0 : 0 ≤ M / (1 - |feedback|) := div_nonneg hM hk.le
  have hMB : M ≤ M / (1 - |feedback|) := by
    have := mul_nonneg hB0 (abs_nonneg feedback)
    nlinarith
  have hvB : |v| ≤ M / (1 - |feedback|) := hbuf v (List.getElem?_mem hread)
  refine ⟨_, _, hv, ?_, ⟨?_, Nat.mod_lt _ (by have := hw.2; omega)⟩, hfb, hmix, ?_⟩
  · rw [hmix]
    calc |input * (1 - mix) + v * mix|
        ≤ |input * (1 - mix)| + |v * mix| := abs_add _ _
      _ = |input| * (1 - mix) + |v| * mix := by
          rw [abs_mul, abs_mul, abs_of_nonneg hm0, abs_of_nonneg (by linarith : 0 ≤ 1 - mix)]
      _ ≤ M / (1 - |feedback|) * (1 - mix) + M / (1 - |feedback|) * mix :=
          add_le_add (mul_le_mul_of_nonneg_right (le_trans hx hMB) (by linarith))
            (mul_le_mul_of_nonneg_right hvB hm0)
      _ = M / (1 - |feedback|) := by ring
  · simpa using hw.1
  · intro w hwmem
    rcases List.mem_or_eq_of_mem_set hwmem with hold | rfl
    · exact hbuf w hold
    · rw [hfb]
      calc |input + v * feedback|
          ≤ |input| + |v * feedback| := abs_add _ _
        _ = |input| + |v| * |feedback| := by rw [abs_mul]
        _ ≤ M + M / (1 - |feedback|) * |feedback| :=
            add_le_add hx (mul_le_mul_of_nonneg_right hvB (abs_nonneg feedback))
        _ = M / (1 - |feedback|) := by
            nth_rewrite 1 [← hB]
            ring

/-- C15. For every freshly constructed `DelayEffect` with buffer length at
least 1, `|feedback| < 1` and `mix` in `[0, 1]`, and every input sequence with
`|x n| ≤ M`: every entry of the fresh buffer, the value returned by every call,
and every buffer entry after every call have absolute value at most
`M / (1 - |feedback|)`. -/
theorem delay_stability [FloorRing α] (delayTime feedback mix M : α) (x : ℕ → α) (n : ℕ)
    (hL : 1 ≤ ⌊delayTime * 44100⌋₊) (hf : |feedback| < 1) (hm0 : 0 ≤ mix)
    (hm1 : mix ≤ 1) (hx : ∀ i, |x i| ≤ M) :
    (∀ v ∈ (DelayEffect.new delayTime feedback mix).buffer, |v| ≤ M / (1 - |feedback|)) ∧
    ∃ y d', callsOn DelayEffect.process (DelayEffect.new delayTime feedback mix) x n
        = some (y, d') ∧
      |y| ≤ M / (1 - |feedback|) ∧ ∀ v ∈ d'.buffer, |v| ≤ M / (1 - |feedback|) := by
  have hB0 : 0 ≤ M / (1 - |feedback|) :=
    div_nonneg (le_trans (abs_nonneg (x 0)) (hx 0)) (by linarith)
  have hfresh : ∀ v ∈ (DelayEffect.new delayTime feedback mix).buffer,
      |v| ≤ M / (1 - |feedback|) := by
    intro v hv
    simp only [DelayEffect.new] at hv
    rw [List.eq_of_mem_replicate hv, abs_zero]
    exact hB0
  have hinv : DelayEffect.BoundedBy feedback mix (M / (1 - |feedback|))
      (DelayEffect.new delayTime feedback mix) :=
    ⟨DelayEffect.delay_new_wellFormed delayTime feedback mix hL, rfl, rfl, hfresh⟩
  refine ⟨hfresh, ?_⟩
  suffices hs : ∃ y d', callsOn DelayEffect.process (DelayEffect.new delayTime feedback mix)
      x n = some (y, d') ∧ |y| ≤ M / (1 - |feedback|) ∧
      DelayEffect.BoundedBy feedback mix (M / (1 - |feedback|)) d' by
    obtain ⟨y, d', h1, h2, h3⟩ := hs
    exact ⟨y, d', h1, h2, h3.2.2.2⟩
  induction n with
  | zero => exact hinv.bounded_step hf hm0 hm1 (hx 0)
  | succ k ih =>
    obtain ⟨y, d', hc, _, hb⟩ := ih
    obtain ⟨y', d'', hp, hy', hb'⟩ := hb.bounded_step hf hm0 hm1 (hx (k + 1))
    exact ⟨y', d'', by simp only [callsOn, hc, hp], hy', hb'⟩

/-- C15 for `DelayEffect(2/44100, 0.5, 0.5)` on the unit impulse, bounded by
`M = 1`: the value returned by call 5 and the buffer after it are bounded by
`1 / (1 - 0.5) = 2`. -/
theorem delay_stability_witness :
    1 ≤ ⌊(2 / 44100 : ℚ) * 44100⌋₊ ∧ |(0.5 : ℚ)| < 1 ∧
    (∀ i, |(impulse i : ℚ)| ≤ 1) ∧
    ∃ y d', callsOn DelayEffect.process (DelayEffect.new (2 / 44100 : ℚ) 0.5 0.5)
        impulse 5 = some (y, d') ∧ |y| ≤ 2 ∧ ∀ v ∈ d'.buffer, |v| ≤ 2 := by
  have hL : 1 ≤ ⌊(2 / 44100 : ℚ) * 44100⌋₊ := by norm_num
  have hf : |(0.5 : ℚ)| < 1 := by rw [abs_of_nonneg (by norm_num)]; norm_num
  have hx : ∀ i, |(impulse i : ℚ)| ≤ 1 := by
    intro i
    by_cases hi : i = 0 <;> simp [impulse, hi]
  have h := (delay_stability (2 / 44100 : ℚ) 0.5 0.5 1 impulse 5 hL hf
    (by norm_num) (by norm_num) hx).2
  have hB : (1 : ℚ) / (1 - |(0.5 : ℚ)|) = 2 := by
    rw [abs_of_nonneg (by norm_num)]; norm_num
  rw [hB] at h
  exact ⟨hL, hf, hx, h⟩

/-! ## C12: the render callback -/

theorem audioCallback.mixLoop_eq [FloorRing α] (exp sin : α → α) (pi : α)
    (oscs : List (Oscillator α)) (sample : α) :
    audioCallback.mixLoop exp sin pi oscs sample
      = ((oscs.map (fun o => (o.getSample exp sin pi).1)).foldl (fun a b => a + b) sample,
         oscs.map (fun o => (o.getSample exp sin pi).2)) := by
  induction oscs generalizing sample with
  | nil => rfl
  | cons osc rest ih => simp only [audioCallback.mixLoop, ih, List.map_cons, List.foldl_cons]

theorem Spec.stereo_length {γ β : Type} (toFloat : γ → β) (ys : List γ) :
    (Spec.stereo toFloat ys).length = 2 * ys.length := by
  induction ys with
  | nil => rfl
  | cons y rest ih => simp only [Spec.stereo, List.length_cons, ih]; ring

theorem Spec.stereo_getElem? {γ β : Type} (toFloat : γ → β) (ys : List γ) (i : ℕ) :
    (Spec.stereo toFloat ys)[2 * i]? = ys[i]?.map toFloat ∧
    (Spec.stereo toFloat ys)[2 * i + 1]? = ys[i]?.map toFloat := by
  induction ys generalizing i with
  | nil => simp [Spec.stereo]
  | cons y rest ih =>
    cases i with
    | zero => simp [Spec.stereo]
    | succ j =>
      have h1 : 2 * (j + 1) = 2 * j + 1 + 1 := by ring
      rw [h1]
      simp only [Spec.stereo, List.getElem?_cons_succ]
      exact ih j

/-- The outer loop of `audioCallback` writes the stereo copy of the
specification's frames behind what was written before. -/
theorem audioCallback.frameLoop_eq [FloorRing α] {β : Type} (exp sin : α → α) (pi : α)
    (toFloat : α → β) (k : ℕ) (e : Engine α) (out : List β) :
    audioCallback.frameLoop exp sin pi toFloat k e out
      = (Spec.frames exp sin pi k e).map
          (fun p => (out ++ Spec.stereo toFloat p.1, p.2)) := by
  induction k generalizing e out with
  | zero => simp [audioCallback.frameLoop, Spec.frames, Spec.stereo]
  | succ m ih =>
    simp only [audioCallback.frameLoop, Spec.frames, Spec.renderSample,
      audioCallback.mixLoop_eq]
    cases hd : e.delay.process
        ((e.oscillators.map (fun o => (o.getSample exp sin pi).1)).foldl
          (fun a b => a + b) 0) with
    | none => rfl
    | some p =>
      obtain ⟨delayed, delay'⟩ := p
      simp only
      cases hr : e.reverb.process delayed with
      | none => rfl
      | some q =>
        obtain ⟨sample, reverb'⟩ := q
        simp only [ih]
        cases hf : Spec.frames exp sin pi m
            { oscillators := e.oscillators.map (fun o => (o.getSample exp sin pi).2),
              delay := delay', reverb := reverb' } with
        | none => rfl
        | some r => simp [Spec.stereo]

theorem DelayEffect.delay_process_wellFormed {d d' : DelayEffect α} {input y : α}
    (h : d.WellFormed) (hp : d.process input = some (y, d')) : d'.WellFormed := by
  obtain ⟨v, _, hv⟩ := d.delay_process_of_wellFormed input h
  rw [hv] at hp
  obtain ⟨_, rfl⟩ := Prod.mk.inj (Option.some.inj hp)
  exact ⟨by simpa using h.1, Nat.mod_lt _ (by have := h.2; omega)⟩

/-- On an engine whose delay and reverb are live, the specification's frames
are defined, and there are as many as were asked for. -/
theorem Spec.frames_of_wellFormed [FloorRing α] (exp sin : α → α) (pi : α) (N : ℕ)
    (e : Engine α) (hd : e.delay.WellFormed) (hr : e.reverb.WellFormed) :
    ∃ ys e', Spec.frames exp sin pi N e = some (ys, e') ∧ ys.length = N ∧
      e'.delay.WellFormed ∧ e'.reverb.WellFormed := by
  induction N generalizing e with
  | zero => exact ⟨[], e, rfl, rfl, hd, hr⟩
  | succ m ih =>
    obtain ⟨yd, d', hv, hd'⟩ : ∃ y d', e.delay.process
        ((e.oscillators.map (fun o => (o.getSample exp sin pi).1)).foldl
          (fun a b => a + b) 0) = some (y, d') ∧ d'.WellFormed := by
      obtain ⟨v, _, hv⟩ := e.delay.delay_process_of_wellFormed
        ((e.oscillators.map (fun o => (o.getSample exp sin pi).1)).foldl
          (fun a b => a + b) 0) hd
      exact ⟨_, _, hv, DelayEffect.delay_process_wellFormed hd hv⟩
    obtain ⟨yr, r', hp, hr'⟩ : ∃ y r', e.reverb.process yd = some (y, r') ∧
        r'.WellFormed := by
      obtain ⟨_, _, _, _, _, _, hp, hr'⟩ := e.reverb.reverb_process_of_wellFormed yd hr
      exact ⟨_, _, hp, hr'⟩
    obtain ⟨ys, e', hf, hlen, hd'', hr''⟩ :=
      ih ⟨e.oscillators.map (fun o => (o.getSample exp sin pi).2), d', r'⟩ hd' hr'
    refine ⟨yr :: ys, e', ?_, by simp [hlen], hd'', hr''⟩
    simp only [Spec.frames, Spec.renderSample, hv, hp, hf]

/-- C12. For every `framesPerBuffer = N` and every engine state whose delay and
reverb have ring buffers of length at least 1, `audioCallback` returns
`paContinue` and writes exactly `2 * N` values; for each frame `i < N` the
positions `2 * i` and `2 * i + 1` hold the same value, the `float` cast of the
`i`-th frame `reverb.process(delay.process(s_i))` of the specification, where
`s_i` sums one `getSample()` of every oscillator in registration order and the
oscillator, delay and reverb states are threaded from frame to frame; the
globals are left in the state after the last frame. -/
theorem render_callback [FloorRing α] {β : Type} (exp sin : α → α) (pi : α)
    (toFloat : α → β) (N : ℕ) (e : Engine α) (hd : e.delay.WellFormed)
    (hr : e.reverb.WellFormed) :
    ∃ ys e' out, Spec.frames exp sin pi N e = some (ys, e') ∧ ys.length = N ∧
      audioCallback exp sin pi toFloat N e
        = some (out, PaStreamCallbackResult.paContinue, e') ∧
      out.length = 2 * N ∧
      ∀ i, i < N → ∃ y, ys[i]? = some y ∧ out[2 * i]? = some (toFloat y) ∧
        out[2 * i + 1]? = some (toFloat y) := by
  obtain ⟨ys, e', hf, hlen, _, _⟩ := Spec.frames_of_wellFormed exp sin pi N e hd hr
  refine ⟨ys, e', Spec.stereo toFloat ys, hf, hlen, ?_, ?_, ?_⟩
  · simp only [audioCallback, audioCallback.frameLoop_eq, hf, Option.map_some',
      List.nil_append]
  · rw [Spec.stereo_length, hlen]
  · intro i hi
    have hi' : i < ys.length := by rw [hlen]; exact hi
    obtain ⟨h1, h2⟩ := Spec.stereo_getElem? toFloat ys i
    refine ⟨ys[i], List.getElem?_eq_getElem hi', ?_, ?_⟩
    · rw [h1, List.getElem?_eq_getElem hi']; rfl
    · rw [h2, List.getElem?_eq_getElem hi']; rfl

/-- C12 on the initial engine with one 440 Hz sine voice and the 256 frames the
stream is opened with: the callback returns `paContinue` and writes 512 values,
the first two of them equal. -/
theorem render_callback_witness :
    (addOscillator SINE (440 : ℝ) 1 0.01 0.01 0.8 1 Engine.initial).delay.WellFormed ∧
    (addOscillator SINE (440 : ℝ) 1 0.01 0.01 0.8 1 Engine.initial).reverb.WellFormed ∧
    ∃ out e', audioCallback Real.exp Real.sin Real.pi (fun v => v) 256
        (addOscillator SINE (440 : ℝ) 1 0.01 0.01 0.8 1 Engine.initial)
        = some (out, PaStreamCallbackResult.paContinue, e') ∧
      out.length = 512 ∧ out[0]? = out[1]? := by
  have hd : (addOscillator SINE (440 : ℝ) 1 0.01 0.01 0.8 1 Engine.initial).delay.WellFormed :=
    DelayEffect.delay_new_wellFormed _ _ _ (Nat.le_floor (by norm_num))
  have hr : (addOscillator SINE (440 : ℝ) 1 0.01 0.01 0.8 1 Engine.initial).reverb.WellFormed :=
    ReverbEffect.reverb_new_wellFormed _ _
  obtain ⟨ys, e', out, _, _, hcall, hlen, hframes⟩ :=
    render_callback Real.exp Real.sin Real.pi (fun v => v) 256
      (addOscillator SINE (440 : ℝ) 1 0.01 0.01 0.8 1 Engine.initial) hd hr
  obtain ⟨y, _, h0, h1⟩ := hframes 0 (by norm_num)
  exact ⟨hd, hr, out, e', hcall, hlen, by rw [h0]; exact h1.symm⟩

/-! ## C20: the onset of the reverb -/

theorem ReverbEffect.After.reverb_step {L0 L1 L2 L3 M0 M1 : ℕ} {decay mix : α}
    {x : ℕ → α} {n : ℕ} {r : ReverbEffect α}
    (h : ReverbEffect.After L0 L1 L2 L3 M0 M1 decay mix x n r)
    (h0 : 0 < L0) (h1 : 0 < L1) (h2 : 0 < L2) (h3 : 0 < L3) (k0 : 0 < M0) (k1 : 0 < M1) :
    ∃ r', r.process (x n)
        = some (x n * (1 - mix) + reverbWet L0 L1 L2 L3 M0 M1 decay x n * mix, r') ∧
      ReverbEffect.After L0 L1 L2 L3 M0 M1 decay mix x (n + 1) r' := by
  obtain ⟨hmix, c0, c1, c2, c3, a0, a1, hcs, has, w0, w1, w2, w3, v0, v1⟩ := h
  obtain ⟨c0', p0, w0'⟩ := w0.comb_step h0
  obtain ⟨c1', p1, w1'⟩ := w1.comb_step h1
  obtain ⟨c2', p2, w2'⟩ := w2.comb_step h2
  obtain ⟨c3', p3, w3'⟩ := w3.comb_step h3
  obtain ⟨a0', q0, v0'⟩ := v0.allPass_step k0
  obtain ⟨a1', q1, v1'⟩ := v1.allPass_step k1
  refine ⟨{ r with combFilters := [c0', c1', c2', c3'], allPassFilters := [a0', a1'] },
    ?_, hmix, c0', c1', c2', c3', a0', a1', rfl, rfl, w0', w1', w2', w3', v0', v1'⟩
  have q0' : a0.process (0 + ringRead L0 decay x n + ringRead L1 decay x n
      + ringRead L2 decay x n + ringRead L3 decay x n)
      = some (reverbDiffused L0 L1 L2 L3 M0 decay x n, a0') := q0
  simp only [ReverbEffect.process, hcs, has, ReverbEffect.combLoop,
    ReverbEffect.allPassLoop, p0, p1, p2, p3, q0', q1, hmix]
  rfl

theorem floor_comb0 [FloorRing α] : ⌊(0.0297 : α) * 44100⌋₊ = 1309 := by
  rw [Nat.floor_eq_iff (by norm_num)]
  constructor <;> norm_num

theorem floor_comb1 [FloorRing α] : ⌊(0.0371 : α) * 44100⌋₊ = 1636 := by
  rw [Nat.floor_eq_iff (by norm_num)]
  constructor <;> norm_num

theorem floor_comb2 [FloorRing α] : ⌊(0.0411 : α) * 44100⌋₊ = 1812 := by
  rw [Nat.floor_eq_iff (by norm_num)]
  constructor <;> norm_num

theorem floor_comb3 [FloorRing α] : ⌊(0.0437 : α) * 44100⌋₊ = 1927 := by
  rw [Nat.floor_eq_iff (by norm_num)]
  constructor <;> norm_num

theorem floor_allPass0 [FloorRing α] : ⌊(0.005 : α) * 44100⌋₊ = 220 := by
  rw [Nat.floor_eq_iff (by norm_num)]
  constructor <;> norm_num

theorem floor_allPass1 [FloorRing α] : ⌊(0.0017 : α) * 44100⌋₊ = 74 := by
  rw [Nat.floor_eq_iff (by norm_num)]
  constructor <;> norm_num

theorem ReverbEffect.After.reverb_fresh [FloorRing α] (decay mix : α) (x : ℕ → α) :
    ReverbEffect.After 1309 1636 1812 1927 220 74 decay mix x 0
      (ReverbEffect.new decay mix) := by
  refine ⟨rfl, _, _, _, _, _, _, rfl, rfl, ?_, ?_, ?_, ?_, ?_, ?_⟩
  · exact ⟨rfl, floor_comb0, by
      simp only [CombFilter.new, floor_comb0]; exact RingAt.ring_fresh _ _ _⟩
  · exact ⟨rfl, floor_comb1, by
      simp only [CombFilter.new, floor_comb1]; exact RingAt.ring_fresh _ _ _⟩
  · exact ⟨rfl, floor_comb2, by
      simp only [CombFilter.new, floor_comb2]; exact RingAt.ring_fresh _ _ _⟩
  · exact ⟨rfl, floor_comb3, by
      simp only [CombFilter.new, floor_comb3]; exact RingAt.ring_fresh _ _ _⟩
  · exact ⟨rfl, floor_allPass0, by
      simp only [AllPassFilter.new, floor_allPass0]; exact RingAt.ring_fresh _ _ _⟩
  · exact ⟨rfl, floor_allPass1, by
      simp only [AllPassFilter.new, floor_allPass1]; exact RingAt.ring_fresh _ _ _⟩

/-- The value returned by call `n` of a fresh `ReverbEffect`. -/
theorem ReverbEffect.reverb_output_fresh [FloorRing α] (decay mix : α) (x : ℕ → α) (n : ℕ) :
    outputOf ReverbEffect.process (ReverbEffect.new decay mix) x n
      = some (x n * (1 - mix) + reverbWet 1309 1636 1812 1927 220 74 decay x n * mix) :=
  outputOf_of_invariant ReverbEffect.process
    (ReverbEffect.After 1309 1636 1812 1927 220 74 decay mix x) _
    (ReverbEffect.new decay mix) x (ReverbEffect.After.reverb_fresh decay mix x)
    (fun _ _ h => h.reverb_step (by norm_num) (by norm_num) (by norm_num) (by norm_num)
      (by norm_num) (by norm_num)) n

/-- A ring fed zeros up to call `n` holds zero at call `n`. -/
theorem ringRead_of_zero_before (L : ℕ) (g : α) (x : ℕ → α) (n : ℕ)
    (hx : ∀ m, m < n → x m = 0) : ringRead L g x n = 0 := by
  induction n using Nat.strong_induction_on with
  | _ n ih =>
    by_cases h : 0 < L ∧ L ≤ n
    · rw [ringRead_ge L g x n h.1 h.2, hx (n - L) (by omega),
        ih (n - L) (by omega) (fun m hm => hx m (by omega))]
      simp
    · rw [ringRead, dif_neg h]

theorem reverbSummed_onset (decay : α) (x : ℕ → α) (n : ℕ) (hn : n < 1309) :
    reverbSummed 1309 1636 1812 1927 decay x n = 0 := by
  simp only [reverbSummed]
  rw [ringRead_lt _ decay x n hn, ringRead_lt _ decay x n (by omega),
    ringRead_lt _ decay x n (by omega), ringRead_lt _ decay x n (by omega)]
  simp

theorem reverbDiffused_onset (decay : α) (x : ℕ → α) (n : ℕ) (hn : n < 1309) :
    reverbDiffused 1309 1636 1812 1927 220 decay x n = 0 := by
  simp only [reverbDiffused]
  rw [reverbSummed_onset decay x n hn,
    ringRead_of_zero_before 220 0.7 _ n
      (fun m hm => reverbSummed_onset decay x m (by omega))]
  simp

theorem reverbWet_onset (decay : α) (x : ℕ → α) (n : ℕ) (hn : n < 1309) :
    reverbWet 1309 1636 1812 1927 220 74 decay x n = 0 := by
  simp only [reverbWet]
  rw [reverbDiffused_onset decay x n hn,
    ringRead_of_zero_before 74 0.7 _ n
      (fun m hm => reverbDiffused_onset decay x m (by omega))]
  simp

theorem reverbWet_first (decay : α) (x : ℕ → α) :
    reverbWet 1309 1636 1812 1927 220 74 decay x 1309 = x 0 := by
  have hs : reverbSummed 1309 1636 1812 1927 decay x 1309 = x 0 := by
    simp only [reverbSummed]
    rw [ringRead_ge 1309 decay x 1309 (by norm_num) (le_refl _), Nat.sub_self,
      ringRead_lt 1309 decay x 0 (by norm_num), ringRead_lt 1636 decay x 1309 (by norm_num),
      ringRead_lt 1812 decay x 1309 (by norm_num),
      ringRead_lt 1927 decay x 1309 (by norm_num)]
    simp
  have hd : reverbDiffused 1309 1636 1812 1927 220 decay x 1309 = -x 0 := by
    simp only [reverbDiffused]
    rw [hs, ringRead_of_zero_before 220 0.7 _ 1309
      (fun m hm => reverbSummed_onset decay x m hm)]
    simp
  simp only [reverbWet]
  rw [hd, ringRead_of_zero_before 74 0.7 _ 1309
    (fun m hm => reverbDiffused_onset decay x m hm)]
  simp

/-- C20. A freshly constructed `ReverbEffect(decay, mix)` has comb filters with
buffers of 1309, 1636, 1812 and 1927 entries and all-pass filters with buffers
of 220 and 74 entries; for every input sequence `x` each of its first 1309 calls
returns `x n * (1 - mix)`, and call 1309 returns `x 1309 * (1 - mix) + x 0 * mix`. -/
theorem reverb_onset [FloorRing α] (decay mix : α) (x : ℕ → α) :
    (ReverbEffect.new decay mix).combFilters.map (fun c => c.buffer.length)
      = [1309, 1636, 1812, 1927] ∧
    (ReverbEffect.new decay mix).combFilters.map (fun c => c.bufferSize)
      = [1309, 1636, 1812, 1927] ∧
    (ReverbEffect.new decay mix).allPassFilters.map (fun a => a.buffer.length)
      = [220, 74] ∧
    (ReverbEffect.new decay mix).allPassFilters.map (fun a => a.bufferSize) = [220, 74] ∧
    (∀ n, n < 1309 →
      outputOf ReverbEffect.process (ReverbEffect.new decay mix) x n
        = some (x n * (1 - mix))) ∧
    outputOf ReverbEffect.process (ReverbEffect.new decay mix) x 1309
      = some (x 1309 * (1 - mix) + x 0 * mix) := by
  refine ⟨?_, ?_, ?_, ?_, ?_, ?_⟩
  · simp only [ReverbEffect.new, CombFilter.new, List.map_cons, List.map_nil,
      List.length_replicate, floor_comb0, floor_comb1, floor_comb2, floor_comb3]
  · simp only [ReverbEffect.new, CombFilter.new, List.map_cons, List.map_nil,
      floor_comb0, floor_comb1, floor_comb2, floor_comb3]
  · simp only [ReverbEffect.new, AllPassFilter.new, List.map_cons, List.map_nil,
      List.length_replicate, floor_allPass0, floor_allPass1]
  · simp only [ReverbEffect.new, AllPassFilter.new, List.map_cons, List.map_nil,
      floor_allPass0, floor_allPass1]
  · intro n hn
    rw [ReverbEffect.reverb_output_fresh decay mix x n, reverbWet_onset decay x n hn]
    simp
  · rw [ReverbEffect.reverb_output_fresh decay mix x 1309, reverbWet_first decay x]

end OscillatorSynth
